import Mathlib

/-!
Verification of the pfeature featuralization engine.

This file shallowly embeds the core of the repository (src/feature_schema.ts
and src/ruleset.ts, final variants) in Lean 4:

* `FeatureBundle` is an insertion-ordered association list mirroring the
  source's `FeatureBundle extends Map<string, string>`: `bset` updates an
  existing key in place or appends a fresh one, `bget` reads the value.
* `Feature` mirrors the schema tree node `{name, values: {label -> children}}`.
* Loops of the source that are not structurally recursive (the explicit stack
  of `validate_bundle`, the `do..while` of `parse_segment`, the recursive
  `featuralize`) take an explicit fuel parameter; theorems show the fuel
  needed is bounded by the input, mirroring the source's termination argument.
* Fallible code (`throw new Error(...)`) returns `Except String`.
-/

namespace PFeature

instance {ε α : Type} [DecidableEq ε] [DecidableEq α] : DecidableEq (Except ε α) := fun a b =>
  match a, b with
  | .ok x, .ok y =>
    if h : x = y then .isTrue (by rw [h]) else .isFalse (by intro hc; cases hc; exact h rfl)
  | .error x, .error y =>
    if h : x = y then .isTrue (by rw [h]) else .isFalse (by intro hc; cases hc; exact h rfl)
  | .ok _, .error _ => .isFalse (by intro hc; cases hc)
  | .error _, .ok _ => .isFalse (by intro hc; cases hc)

/-- Insertion-ordered map of feature name to feature value
(`FeatureBundle extends Map<string, string>` in src/feature_schema.ts). -/
abbrev FeatureBundle := List (String × String)

/-- `Map.get`: value of the first (only) entry for key `k`. -/
def bget (b : FeatureBundle) (k : String) : Option String :=
  (b.find? (fun p => p.1 == k)).map (fun p => p.2)

/-- `Map.set`: update the entry for `k` in place if present, else append.
A `Map` never holds two entries for one key, so updating the first
occurrence is the exact `Map.set` behaviour. -/
def bset (b : FeatureBundle) (k v : String) : FeatureBundle :=
  match b with
  | [] => [(k, v)]
  | p :: t => if p.1 == k then (k, v) :: t else p :: bset t k v

/-- `Map.keys` in insertion order. -/
def bkeys (b : FeatureBundle) : List String := b.map (fun p => p.1)

/-- A feature schema node: a name and a map of value labels to the child
features gated by that label (src/feature_schema.ts `type Feature`). -/
inductive Feature where
  | mk (name : String) (values : List (String × List Feature))

def Feature.name : Feature → String
  | .mk n _ => n

def Feature.values : Feature → List (String × List Feature)
  | .mk _ vs => vs

/-- Look up the children list gated by value label `v` (`feature.values[v]`,
`undefined` when the label is not permitted on this feature). -/
def Feature.childrenFor (f : Feature) (v : String) : Option (List Feature) :=
  (f.values.find? (fun p => p.1 == v)).map (fun p => p.2)

/-- The list of top-level features (the `Features` value of the `Root` node). -/
abbrev Schema := List Feature

/-- The while-loop of `FeatureSchema.validate_bundle` (src/feature_schema.ts):
pop a feature from the stack, require the bundle to assign it a value, require
the value to be a permitted label, and push the children gated by that value.
The source pops from the array's end; we pop from the list's head and push
children on the head, which is the same stack discipline (only the order in
which sibling subtrees are visited — hence which of several errors fires
first — can differ; acceptance is unaffected).  `none` means out of fuel,
which never happens for fuel ≥ the node count. -/
def vbLoop (bundle : FeatureBundle) (errStr : String) :
    Nat → List Feature → Option (Except String Unit)
  | 0, _ => none
  | _, [] => some (.ok ())
  | fuel + 1, curr :: stack =>
    match bget bundle curr.name with
    | none => some (.error s!"Invalid bundle: missing {curr.name} ({errStr})")
    | some v =>
      match curr.childrenFor v with
      | none => some (.error
          s!"Invalid bundle: value {v} not possible on feature {curr.name} ({errStr})")
      | some children =>
        if children.length > 0 then
          vbLoop bundle errStr fuel (children ++ stack)
        else
          vbLoop bundle errStr fuel stack

/-- `FeatureSchema.validate_bundle(bundle, err_str?)`: walk the schema from the
top-level features; every feature reachable under the bundle's own value
choices must have an entry with a permitted label. -/
def validate_bundle (schema : Schema) (bundle : FeatureBundle)
    (errStr : String) (fuel : Nat) : Option (Except String Unit) :=
  vbLoop bundle errStr fuel schema

/-- The schema of the claim's example:
`{consonantal: [+ -> {fortis: [+,-]}, - -> []]}`. -/
def fortisF : Feature := .mk "fortis" [("+", []), ("-", [])]

def consonantalF : Feature := .mk "consonantal" [("+", [fortisF]), ("-", [])]

def schemaC : Schema := [consonantalF]

/-- The bundle assigns `f` one of `f`'s permitted value labels. -/
def entryValid (bundle : FeatureBundle) (f : Feature) : Prop :=
  ∃ v, bget bundle f.name = some v ∧ (f.childrenFor v).isSome

/-- The features reachable from a stack of features, descending only through
the value the bundle itself chooses at each node ("reachable given decisions
already made"). -/
inductive ReachesFrom (bundle : FeatureBundle) : List Feature → Feature → Prop
  | top {stack : List Feature} {f : Feature} : f ∈ stack → ReachesFrom bundle stack f
  | child {stack : List Feature} {f : Feature} {v : String} {cs : List Feature}
      {c : Feature} : ReachesFrom bundle stack f → bget bundle f.name = some v →
      f.childrenFor v = some cs → c ∈ cs → ReachesFrom bundle stack c

/-- Every feature reachable from the top-level features under the bundle's own
choices has a valid entry. -/
def BundleComprehensive (schema : Schema) (bundle : FeatureBundle) : Prop :=
  ∀ f, ReachesFrom bundle schema f → entryValid bundle f

/-! ### Bundle update lemmas -/
/-- The first defined of two optional values (`a ?? b`). -/
def firstSome (a b : Option String) : Option String :=
  match a with
  | some v => some v
  | none => b

/-- `Ruleset.modify_bundle(bundle, patch)` (src/ruleset.ts): copy the bundle,
then `set` every patch entry over it. -/
def modify_bundle (bundle patch : FeatureBundle) : FeatureBundle :=
  patch.foldl (fun nb p => bset nb p.1 p.2) bundle

/-! ### `FeatureSchema.apply_modifier` (C3) -/
/-- Insertion-ordered de-duplication: `new Set(array)` iterated in order. -/
def dedupKeepFirst (l : List String) : List String :=
  l.foldl (fun acc x => if acc.contains x then acc else acc ++ [x]) []

/-- The key-union loop of `FeatureSchema.apply_modifier`
(src/feature_schema.ts): for every key of base ∪ modifier, take the
modifier's value when present, else the base's; error if neither resolves. -/
def amGo (base modifier : FeatureBundle) :
    List String → FeatureBundle → Except String FeatureBundle
  | [], res => .ok res
  | k :: ks, res =>
    match bget modifier k with
    | some v => amGo base modifier ks (bset res k v)
    | none =>
      match bget base k with
      | some v => amGo base modifier ks (bset res k v)
      | none => .error s!"Couldn't find {k} in apply_modifier"

def applyModifierBuild (base modifier : FeatureBundle) : Except String FeatureBundle :=
  amGo base modifier (dedupKeepFirst (bkeys base ++ bkeys modifier)) []

/-- `FeatureSchema.apply_modifier`: build the overridden bundle, then
re-validate it with `validate_bundle` before returning. -/
def apply_modifier (schema : Schema) (base modifier : FeatureBundle)
    (fuel : Nat) : Option (Except String FeatureBundle) :=
  match applyModifierBuild base modifier with
  | .error e => some (.error e)
  | .ok res =>
    (validate_bundle schema res "Runtime error" fuel).map
      (fun v => v.map (fun _ => res))

/-! ### `Ruleset.apply_rule` (C4) -/
/-- A rule's match bundle matches the working bundle when every
`feature:value` pair of the match equals the working bundle's entry
(`[...lhs].every(([feature_name, value]) => bundle.get(feature_name) === value)`). -/
def bundleMatches (lhs bundle : FeatureBundle) : Bool :=
  lhs.all (fun p => bget bundle p.1 == some p.2)

/-- The rule-scanning loop of `Ruleset.apply_rule` (src/ruleset.ts): walk the
diacritic's `(match, patch)` pairs; remember the patch of the first match;
a second match throws the multiple-matches error. -/
def applyRuleGo (bundle : FeatureBundle) (msg : String) :
    List (FeatureBundle × FeatureBundle) → Option FeatureBundle →
      Except String (Option FeatureBundle)
  | [], acc => .ok acc
  | (lhs, rhs) :: rest, acc =>
    if bundleMatches lhs bundle then
      match acc with
      | some _ => .error msg
      | none => applyRuleGo bundle msg rest (some rhs)
    else
      applyRuleGo bundle msg rest acc

/-- `Ruleset.apply_rule(rule, bundle, rule_raw, segment_raw)`: zero matches
returns the bundle unchanged, one match applies its patch via
`modify_bundle`, two simultaneous matches is an error naming the diacritic
and the segment. -/
def apply_rule (rule : List (FeatureBundle × FeatureBundle))
    (bundle : FeatureBundle) (rule_raw segment_raw : String) :
    Except String FeatureBundle :=
  match applyRuleGo bundle
      s!"Rule {rule_raw} has multiple matches for {segment_raw}" rule none with
  | .error e => .error e
  | .ok none => .ok bundle
  | .ok (some rhs) => .ok (modify_bundle bundle rhs)

/-! ### The greedy longest-match tokenizer primitive (`greedy_match`) -/
/-- The inner loop of `greedy_match` (src/ruleset.ts): starting from the
current scan position, try every end position in increasing order and keep
the last (hence largest) one whose substring is a member of the glyph set.
Relative to the scan position this is the length of the longest prefix of
`s` that is in the set, or `0` when no nonempty prefix is. -/
def longest_len (set : List String) (s : List Char) : Nat :=
  (List.range' 1 s.length).foldl
    (fun acc n => if (s.take n).asString ∈ set then n else acc) 0

/-- The outer loop of `greedy_match`: consume the longest matching prefix and
advance past it (`start = max_known_end - 1` plus the `start++`), stopping as
soon as no nonempty prefix matches.  Fuel-indexed; one unit of fuel per
consumed glyph, so `s.length + 1` always suffices. -/
def greedyGo (set : List String) : Nat → List Char → List String × List Char
  | 0, s => ([], s)
  | fuel + 1, s =>
    if longest_len set s = 0 then ([], s)
    else
      ((s.take (longest_len set s)).asString
          :: (greedyGo set fuel (s.drop (longest_len set s))).1,
        (greedyGo set fuel (s.drop (longest_len set s))).2)

/-- `greedy_match(str, container)` (src/ruleset.ts): returns the matched
glyphs and the unmatched remainder.  The source accumulates matches into a
`Set` (it even adds each match twice; the second add is a no-op), so repeated
matches collapse to one entry in insertion order — modelled by
`dedupKeepFirst` over the raw match sequence. -/
def greedy_match (set : List String) (s : List Char) : List String × List Char :=
  let r := greedyGo set (s.length + 1) s
  (dedupKeepFirst r.1, r.2)

/-- The raw (pre-`Set`) sequence of glyphs the scan consumes, in order. -/
def greedyRaw (set : List String) (s : List Char) : List String :=
  (greedyGo set (s.length + 1) s).1

/-! ### Segments and the tokenizer (`Ruleset.parse_segment`) -/
/-- One base character plus its three modifier sets (class `UnitSegment`,
src/ruleset.ts).  JS `Set`s iterate in insertion order; they are modelled as
duplicate-free lists in insertion order. -/
structure UnitSegment where
  base : String
  prefixal_modifiers : List String
  combining_modifiers : List String
  suffixal_modifiers : List String
deriving DecidableEq, Repr

/-- `merge(s, ...ts)` (src/ruleset.ts): copy the set and add each element
(adding an element already present is a no-op). -/
def mergeMods (s ts : List String) : List String :=
  ts.foldl (fun acc t => if acc.contains t then acc else acc ++ [t]) s

/-- Class `Segment` (src/ruleset.ts): the unit list, the raw input string
(private `#raw`), and the queue of prefixal modifiers read before the first
base character. -/
structure Segment where
  units : List UnitSegment
  rawStr : String
  prefix_queue : List String
deriving DecidableEq, Repr

/-- `new Segment(raw)`. -/
def Segment.init (raw : String) : Segment := ⟨[], raw, []⟩

/-- `Segment.add_prefixes`: with no units yet, merge into the prefix queue;
otherwise merge into the current (last) unit's prefixal modifiers. -/
def Segment.add_prefixes (seg : Segment) (ps : List String) : Segment :=
  match seg.units.getLast? with
  | none => { seg with prefix_queue := mergeMods seg.prefix_queue ps }
  | some u => { seg with units := seg.units.dropLast
      ++ [{ u with prefixal_modifiers := mergeMods u.prefixal_modifiers ps }] }

/-- `Segment.add_base`: push a new unit; only the first unit receives the
pending prefix queue. -/
def Segment.add_base (seg : Segment) (b : String) : Segment :=
  let prefixes := if seg.units.isEmpty then seg.prefix_queue else []
  { seg with units := seg.units ++ [⟨b, prefixes, [], []⟩] }

/-- `Segment.add_combinings`: merges into `this.curr.combining_modifiers`.
`this.curr` is `units[units.length - 1]`, which is `undefined` when no unit
has been pushed yet; the property read then crashes with a `TypeError`
(before the modifier set is even inspected), modelled as an error value. -/
def Segment.add_combinings (seg : Segment) (cs : List String) : Except String Segment :=
  match seg.units.getLast? with
  | none => .error
      "TypeError: Cannot read properties of undefined (reading 'combining_modifiers')"
  | some u => .ok { seg with units := seg.units.dropLast
      ++ [{ u with combining_modifiers := mergeMods u.combining_modifiers cs }] }

/-- `Segment.add_suffixes`: same shape as `add_combinings`. -/
def Segment.add_suffixes (seg : Segment) (ss : List String) : Except String Segment :=
  match seg.units.getLast? with
  | none => .error
      "TypeError: Cannot read properties of undefined (reading 'suffixal_modifiers')"
  | some u => .ok { seg with units := seg.units.dropLast
      ++ [{ u with suffixal_modifiers := mergeMods u.suffixal_modifiers ss }] }

/-- `Segment.base_count`. -/
def Segment.base_count (seg : Segment) : Nat := seg.units.length

/-- Generic lookup in an insertion-ordered string-keyed table (JS `Map.get`). -/
def tlookup {α : Type} (tbl : List (String × α)) (k : String) : Option α :=
  (tbl.find? (fun p => p.1 == k)).map (fun p => p.2)

/-- Table keys in insertion order (JS `Map.keys`, fed to `new Set(...)` by
`greedy_match`). -/
def tkeys {α : Type} (tbl : List (String × α)) : List String :=
  tbl.map (fun p => p.1)

/-- A diacritic's rules: insertion-ordered `Map` of match bundle to patch
bundle (`ModifierRule` in src/feature_schema.ts).  The `Modifier` record's
`glyph` field always equals its key in the table, and its `klass` is the
table it lives in, so the tables store the rules directly. -/
abbrev ModifierRules := List (FeatureBundle × FeatureBundle)

/-- The state of class `FeatureSchema` (src/feature_schema.ts) after its
constructor ran: the top-level feature list (`raw_schema.values.Features`)
and the two indexes.  `features_by_parent` maps a feature name to the
`FeatureValue {feature, value}` that gates it; the constructor creates one
such object per (parent, value-label) pair and shares it between siblings,
so object identity coincides with equality of the (parent-name, value)
pair, which is how it is modelled. -/
structure FeatureSchemaS where
  top : List Feature
  features_by_name : List (String × Feature)
  features_by_parent : List (String × (String × String))

/-- The ready state of class `Ruleset` (src/ruleset.ts): the four glyph
tables plus the parsing state (`defaults`, `aliases`) and the schema.  The
three `mods_*_order` maps are derived from the tables exactly as the
constructor does after loading (see `get_normalization_order`). -/
structure Ruleset where
  base_characters : List (String × FeatureBundle)
  mods_prefixal : List (String × ModifierRules)
  mods_combining : List (String × ModifierRules)
  mods_suffixal : List (String × ModifierRules)
  feature_schema : FeatureSchemaS
  defaults : FeatureBundle
  aliases : List (String × FeatureBundle)

/-- `Ruleset.get_normalization_order`: map each key of a table to its index. -/
def get_normalization_order {α : Type} (m : List (String × α)) : List (String × Nat) :=
  (m.map (fun p => p.1)).enum.map (fun p => (p.2, p.1))

def Ruleset.mods_prefixal_order (rs : Ruleset) : List (String × Nat) :=
  get_normalization_order rs.mods_prefixal

def Ruleset.mods_combining_order (rs : Ruleset) : List (String × Nat) :=
  get_normalization_order rs.mods_combining

def Ruleset.mods_suffixal_order (rs : Ruleset) : List (String × Nat) :=
  get_normalization_order rs.mods_suffixal

/-- The body of `parse_segment`'s `do..while` loop: consume base characters,
then combining modifiers, then suffixal modifiers, repeating while the
remainder keeps shrinking.  Fuel-indexed: `none` means out of fuel, which
`parse_loop_total` shows never happens for fuel > remainder length. -/
def parse_loop (rs : Ruleset) :
    Nat → Segment → List Char → Option (Except String (Segment × List Char))
  | 0, _, _ => none
  | fuel + 1, seg, rem =>
    let last := rem.length
    let br := greedy_match (tkeys rs.base_characters) rem
    let seg1 := br.1.foldl Segment.add_base seg
    let cr := greedy_match (tkeys rs.mods_combining) br.2
    match seg1.add_combinings cr.1 with
    | .error e => some (.error e)
    | .ok seg2 =>
      let sr := greedy_match (tkeys rs.mods_suffixal) cr.2
      match seg2.add_suffixes sr.1 with
      | .error e => some (.error e)
      | .ok seg3 =>
        if sr.2.length ≠ last then parse_loop rs fuel seg3 sr.2
        else some (.ok (seg3, sr.2))

/-- `Ruleset.parse_segment(segment_raw)` (src/ruleset.ts): read prefixal
characters first, run the loop, then check for a missing base character and
for an unconsumed remainder.  (`Segment.toString` interpolation is elided
from the two final error messages; their identity is what the claims are
about, not the rendered segment.) -/
def parse_segment (rs : Ruleset) (raw : String) : Except String Segment :=
  let s := raw.data
  let pr := greedy_match (tkeys rs.mods_prefixal) s
  let seg0 := (Segment.init raw).add_prefixes pr.1
  match parse_loop rs (pr.2.length + 1) seg0 pr.2 with
  | none => .error "parse_segment: out of fuel (unreachable; see parse_loop_total)"
  | some (.error e) => .error e
  | some (.ok (seg, rem)) =>
    if seg.base_count = 0 then
      .error s!"No base char found in segment {seg.rawStr}"
    else if rem.length > 0 then
      .error s!"Unable to fully featuralize segment {seg.rawStr} - remainder {rem.asString}"
    else
      .ok seg

/-- A binary feature `f` used by the example rulesets. -/
def fF : Feature := .mk "f" [("+", []), ("-", [])]

/-- A binary feature `g` used by the example rulesets. -/
def gF : Feature := .mk "g" [("+", []), ("-", [])]

/-- The `FeatureSchema` state the constructor builds for the one-feature
schema `[f]`. -/
def schema9 : FeatureSchemaS :=
  ⟨[fF],
    [("Root", .mk "Root" [("Features", [fF])]), ("f", fF)],
    [("f", ("Root", "Features"))]⟩

/-- A tiny ruleset: one base character `t` and one suffixal diacritic `s`. -/
def RS9 : Ruleset :=
  { base_characters := [("t", [("f", "+")])]
    mods_prefixal := []
    mods_combining := []
    mods_suffixal := [("s", [])]
    feature_schema := schema9
    defaults := []
    aliases := [] }

/-! ### Normalization and featuralization (`Ruleset.featuralize`, C2) -/
/-- `string_to_codepoints` (src/util.ts): the hex codepoint of each character,
4-digit-zero-padded, uppercase.  (The source walks UTF-16 units and skips the
low surrogate of an astral pair, which yields exactly the codepoint list.) -/
def hex4 (n : Nat) : String :=
  let ds := (Nat.toDigits 16 n).map Char.toUpper
  ⟨List.replicate (4 - ds.length) '0' ++ ds⟩

def string_to_codepoints (s : String) : List String :=
  s.data.map (fun c => hex4 c.toNat)

/-- `UnitSegment.toString`: the four component groups rendered as codepoint
lists and joined with `-` inside braces.  A JS array interpolated into a
string joins with `,`, so a multi-codepoint glyph renders `hhhh,hhhh` inside
a modifier group while groups join with `+`; the base (a plain codepoint
array) joins with `+`.  Empty groups render `0`. -/
def UnitSegment.toStr (u : UnitSegment) : String :=
  let comps : List String :=
    [String.intercalate "+"
        (u.prefixal_modifiers.map (fun m => String.intercalate "," (string_to_codepoints m))),
      String.intercalate "+" (string_to_codepoints u.base),
      String.intercalate "+"
        (u.combining_modifiers.map (fun m => String.intercalate "," (string_to_codepoints m))),
      String.intercalate "+"
        (u.suffixal_modifiers.map (fun m => String.intercalate "," (string_to_codepoints m)))]
  "\x7b" ++ String.intercalate "-" (comps.map (fun c => if c.length = 0 then "0" else c))
    ++ "\x7d"

/-- `UnitSegment.raw` getter: prefixes, base, combinings, suffixes
concatenated. -/
def UnitSegment.raw (u : UnitSegment) : String :=
  String.join u.prefixal_modifiers ++ u.base
    ++ String.join u.combining_modifiers ++ String.join u.suffixal_modifiers

/-- `Segment.toString`: the raw input and the rendered unit list (a JS array
interpolates with `,`). -/
def Segment.toStr (seg : Segment) : String :=
  seg.rawStr ++ " (" ++ String.intercalate "," (seg.units.map UnitSegment.toStr) ++ ")"

/-- `Segment.raw` getter: the unit raws concatenated. -/
def Segment.rawGet (seg : Segment) : String :=
  String.join (seg.units.map UnitSegment.raw)

/-- `set_eq` (src/util.ts): same size and the same elements in insertion
order — i.e. list equality of the insertion-ordered element lists. -/
def set_eq (s1 s2 : List String) : Bool := s1 == s2

/-- `UnitSegment.eq`: same base and `set_eq` on each of the three modifier
sets. -/
def UnitSegment.eq (u1 u2 : UnitSegment) : Bool :=
  u1.base == u2.base
    && set_eq u1.prefixal_modifiers u2.prefixal_modifiers
    && set_eq u1.combining_modifiers u2.combining_modifiers
    && set_eq u1.suffixal_modifiers u2.suffixal_modifiers

def insertByIdx (ord : List (String × Nat)) (m : String) : List String → List String
  | [] => [m]
  | x :: xs =>
    if (tlookup ord m).getD 0 ≤ (tlookup ord x).getD 0 then m :: x :: xs
    else x :: insertByIdx ord m xs

/-- Ascending sort by order-map index.  The order maps assign distinct
indices, so the sorted result is the unique ascending arrangement `sort()`
produces. -/
def sortByIdx (ord : List (String × Nat)) : List String → List String
  | [] => []
  | x :: xs => insertByIdx ord x (sortByIdx ord xs)

/-- The sort of one modifier set in `UnitSegment.get_normalized`
(src/ruleset.ts): the source's `compare_fn` throws when a compared element is
missing from the order map; we check membership up front.  (JS `sort` only
invokes the comparator on lists of two or more elements, but every glyph the
tokenizer matched is a key of its modifier table, whose keys are exactly the
order map's keys, so the difference is unobservable from `featuralize`.) -/
def sortMods (ord : List (String × Nat)) (mods : List String) : Except String (List String) :=
  match mods.find? (fun m => (tlookup ord m).isNone) with
  | some m => .error ("Couldn't find order info for " ++ m)
  | none => .ok (sortByIdx ord mods)

/-- `UnitSegment.get_normalized`: a new unit with each modifier set sorted by
the per-class first-definition order. -/
def UnitSegment.get_normalized (u : UnitSegment) (po co so : List (String × Nat)) :
    Except String UnitSegment := do
  let p ← sortMods po u.prefixal_modifiers
  let c ← sortMods co u.combining_modifiers
  let s ← sortMods so u.suffixal_modifiers
  .ok ⟨u.base, p, c, s⟩

/-- `Segment.get_normalized(ruleset)`: normalize every unit;
`Segment.fromUnits` keeps the original raw string and starts with a fresh
(empty) prefix queue. -/
def Segment.get_normalized (seg : Segment) (rs : Ruleset) : Except String Segment := do
  let units' ← seg.units.mapM (fun u =>
    u.get_normalized rs.mods_prefixal_order rs.mods_combining_order rs.mods_suffixal_order)
  .ok ⟨units', seg.rawStr, []⟩

/-- `Segment.is_normalized(ruleset)`. -/
def Segment.is_normalized (seg : Segment) (rs : Ruleset) : Except String Bool := do
  let norm ← seg.get_normalized rs
  if norm.units.length ≠ seg.units.length then .ok false
  else .ok ((seg.units.zip norm.units).all (fun p => p.1.eq p.2))

/-- The inner loop of `Ruleset.featuralize_unit` for one modifier class:
look up each attached diacritic in the class table (`UndefinedDiacritic`
otherwise) and apply its rules; `rule_raw` is the modifier's own glyph and
`segment_raw` is `unit.toString()`. -/
def applyDiacritics (mods : List (String × ModifierRules)) (diacritics : List String)
    (u : UnitSegment) (bundle : FeatureBundle) : Except String FeatureBundle :=
  diacritics.foldlM
    (fun b d =>
      match tlookup mods d with
      | none => .error ("Undefined rule for diacritic " ++ d)
      | some rules => apply_rule rules b d u.toStr)
    bundle

/-- `Ruleset.featuralize_unit(unit)`: start from the base character's bundle
and fold the three modifier classes in the fixed order prefixal, combining,
suffixal. -/
def featuralize_unit (rs : Ruleset) (u : UnitSegment) : Except String FeatureBundle := do
  match tlookup rs.base_characters u.base with
  | none => .error ("Unknown base character " ++ u.base)
  | some bc => do
    let b1 ← applyDiacritics rs.mods_prefixal u.prefixal_modifiers u bc
    let b2 ← applyDiacritics rs.mods_combining u.combining_modifiers u b1
    applyDiacritics rs.mods_suffixal u.suffixal_modifiers u b2

/-- Modelled from the spec: class `TemporalFeatureBundle` is imported by the
featuralizer from feature_schema.ts but its definition is missing from src/.
Per the spec (§4.4) multi-unit featuralization produces "one bundle per
UnitSegment and a naive sequence aggregation", so `fromArray` wraps the
per-unit bundle list and `eq` compares the sequences entry-wise (bundles
being insertion-ordered feature:value lists). -/
structure TemporalFeatureBundle where
  bundles : List FeatureBundle
deriving DecidableEq, Repr

def TemporalFeatureBundle.fromArray (l : List FeatureBundle) : TemporalFeatureBundle := ⟨l⟩

def TemporalFeatureBundle.eq (a b : TemporalFeatureBundle) : Bool := a.bundles == b.bundles

/-- `Ruleset.featuralize(segment_raw)` (src/ruleset.ts): parse, featuralize
each unit, then run the normalization-equivalence check, which recursively
featuralizes the canonical form when the tokenized form is not already
canonical.  The source's recursion is unbounded, so the embedding is
fuel-indexed; warnings (the source pushes them onto a global list via
`warn`) are returned alongside the result, in push order. -/
def featuralize (rs : Ruleset) :
    Nat → String → Except String (TemporalFeatureBundle × List String)
  | 0, _ => .error "featuralize: recursion fuel exhausted (modelling artifact)"
  | fuel + 1, segment_raw =>
    match parse_segment rs segment_raw with
    | .error e => .error e
    | .ok segment =>
      match segment.units.mapM (featuralize_unit rs) with
      | .error e => .error e
      | .ok features_arr =>
        match segment.is_normalized rs with
        | .error e => .error e
        | .ok true => .ok (TemporalFeatureBundle.fromArray features_arr, [])
        | .ok false =>
          match segment.get_normalized rs with
          | .error e => .error e
          | .ok norm =>
            match featuralize rs fuel norm.rawGet with
            | .error e => .error e
            | .ok r =>
              if (TemporalFeatureBundle.fromArray features_arr).eq r.1 then
                .ok (TemporalFeatureBundle.fromArray features_arr,
                  (segment.toStr ++ " not normalized: normal form " ++ norm.toStr) :: r.2)
              else
                .ok (TemporalFeatureBundle.fromArray features_arr,
                  ((segment.toStr ++ " not normalized: normal form " ++ norm.toStr) :: r.2)
                    ++ ["  Normalization affects featuralization! This is probably Very Bad."])

/-- Rules of the suffixal diacritic `p`: one rule `f:- → f:+`. -/
def ruleP : ModifierRules := [([("f", "-")], [("f", "+")])]

/-- Rules of the suffixal diacritic `q`: `f:+ → f:+` and `g:- → g:+`.  Both
can match one bundle simultaneously (e.g. `{f:+, g:-}`), which the loader
does not reject — ambiguity is checked only at apply time. -/
def ruleQ : ModifierRules :=
  [([("f", "+")], [("f", "+")]), ([("g", "-")], [("g", "+")])]

/-- The `FeatureSchema` state the constructor builds for the two-feature
schema `[f, g]`. -/
def schema2 : FeatureSchemaS :=
  ⟨[fF, gF],
    [("Root", .mk "Root" [("Features", [fF, gF])]), ("f", fF), ("g", gF)],
    [("f", ("Root", "Features")), ("g", ("Root", "Features"))]⟩

/-- Base `b = {f:-, g:-}` with suffixal diacritics `p` (defined first) and
`q`; the canonical suffix order is therefore `p` before `q`. -/
def RS2 : Ruleset :=
  { base_characters := [("b", [("f", "-"), ("g", "-")])]
    mods_prefixal := []
    mods_combining := []
    mods_suffixal := [("p", ruleP), ("q", ruleQ)]
    feature_schema := schema2
    defaults := []
    aliases := [] }

/-- A variant of `RS2` whose diacritics commute: `q` only flips `g`. -/
def RS2b : Ruleset :=
  { RS2 with mods_suffixal := [("p", ruleP), ("q", [([("g", "-")], [("g", "+")])])] }

/-! ### `FeatureSchema.validate_modifier_rule` (C6) -/
/-- `FeatureSchema.get_parent(name)`: the gating `(parent, value)` of a
feature, an error when the name has no parent entry. -/
def fs_get_parent (fs : FeatureSchemaS) (name : String) : Except String (String × String) :=
  match tlookup fs.features_by_parent name with
  | none => .error ("Undefined get_parent for " ++ name)
  | some pv => .ok pv

/-- `FeatureSchema.bundle_to_values(bundle)`: each entry resolved against
`features_by_name`, with the value checked against the feature's permitted
labels.  The `FeatureValue` records are modelled by (feature-name, value)
pairs, which is all the callers consult. -/
def bundle_to_values (fs : FeatureSchemaS) (bundle : FeatureBundle) :
    Except String (List (String × String)) :=
  bundle.mapM (fun p =>
    match tlookup fs.features_by_name p.1 with
    | none => .error ("Undefined feature " ++ p.1 ++ " in bundle_to_values")
    | some f =>
      if (f.childrenFor p.2).isSome then .ok (p.1, p.2)
      else .error ("Invalid feature/value pair " ++ p.1 ++ "/" ++ p.2
        ++ " in bundle_to_values"))

/-- A filter whose predicate may fail (the `derived_rhs_features.filter`
whose body calls the throwing `get_parent`). -/
def exceptFilter {α : Type} (p : α → Except String Bool) :
    List α → Except String (List α)
  | [] => .ok []
  | x :: t =>
    match p x with
    | .error e => .error e
    | .ok b =>
      match exceptFilter p t with
      | .error e => .error e
      | .ok rest => .ok (if b then x :: rest else rest)

/-- The final loop of `validate_modifier_rule`: every remaining derived patch
feature must have its gating parent, with the gating value, inside the match
bundle.  (The JSON-serialized bundles of the source's error message are
elided; the message still names the glyph.) -/
def vmrCheck (fs : FeatureSchemaS) (lhs : List (String × String)) (glyph : String) :
    List (String × String) → Except String Unit
  | [] => .ok ()
  | x :: t =>
    match tlookup fs.features_by_parent x.1 with
    | none => .error "Undefined RHS parent (this should never happen)"
    | some rp =>
      if lhs.any (fun fval => fval.1 == rp.1 && fval.2 == rp.2) then
        vmrCheck fs lhs glyph t
      else .error ("Invalid rule for " ++ glyph)

/-- `FeatureSchema.validate_modifier_rule(lhs_, rhs_, glyph)`
(src/feature_schema.ts): successively exempt patch features that are children
of the root, present in the match, or siblings of a match feature (same
parent `FeatureValue`), then require the match to contain the gating parent
value of every remaining patch feature. -/
def validate_modifier_rule (fs : FeatureSchemaS) (lhs_ rhs_ : FeatureBundle)
    (glyph : String) : Except String Unit :=
  match bundle_to_values fs lhs_ with
  | .error e => .error e
  | .ok lhs =>
    match bundle_to_values fs rhs_ with
    | .error e => .error e
    | .ok rhs =>
      let d1 := rhs.filter (fun x => !((fs.top.map Feature.name).contains x.1))
      let d2 := d1.filter (fun x => !((lhs.map (fun p => p.1)).contains x.1))
      match lhs.mapM (fun x => fs_get_parent fs x.1) with
      | .error e => .error e
      | .ok lhs_parents =>
        match exceptFilter
            (fun x =>
              match fs_get_parent fs x.1 with
              | .error e => .error e
              | .ok p => .ok (!(lhs_parents.contains p)))
            d2 with
        | .error e => .error e
        | .ok d3 => vmrCheck fs lhs glyph d3

/-! ### Rules-file directive parsing (C10) -/
/-- `Map.set` on a generic string-keyed table (as `bset`, for `aliases`). -/
def tset {α : Type} (tbl : List (String × α)) (k : String) (v : α) : List (String × α) :=
  match tbl with
  | [] => [(k, v)]
  | p :: t => if p.1 == k then (k, v) :: t else p :: tset t k v

/-- `str.slice(0, n)` over the character list (JS string indexing; kernel-
computable, unlike position-based `String.take`). -/
def strTake (s : String) (n : Nat) : String := ⟨s.data.take n⟩

/-- `str.slice(n)` over the character list. -/
def strDrop (s : String) (n : Nat) : String := ⟨s.data.drop n⟩

/-- `str.split(sep)` over the character list: JS `split` on a one-character
separator. -/
def splitCharList (sep : Char) : List Char → List (List Char)
  | [] => [[]]
  | c :: t =>
    match splitCharList sep t with
    | [] => [[c]] -- unreachable: the recursion always yields a nonempty list
    | h :: t' => if c = sep then [] :: h :: t' else (c :: h) :: t'

def strSplit (s : String) (sep : Char) : List String :=
  (splitCharList sep s.data).map List.asString

/-- `Ruleset.parse_feature_value`: long-form binary value synonyms. -/
def parse_feature_value (fname : String) : String :=
  if fname == "false" then "-"
  else if fname == "true" then "+"
  else if fname == "null" then "0"
  else fname

/-- `Ruleset.parse_feature(fname_raw)` (src/ruleset.ts): `name:value`, or the
one-character-sign shorthand `<sign><name>`.  (The source decorates the
nonexistent-feature error with the current line number via `this.err`; line
bookkeeping is elided.) -/
def parse_feature (rs : Ruleset) (fname_raw : String) : Except String FeatureBundle :=
  let fname_arr := strSplit fname_raw ':'
  if fname_arr.length > 2 ∨ fname_arr.length = 0 then
    .error ("Invalid feature assignment: " ++ fname_raw)
  else
    let fname := if fname_arr.length = 1 then strDrop (fname_arr.headD "") 1
      else fname_arr.headD ""
    let fval := if fname_arr.length = 1 then strTake (fname_arr.headD "") 1
      else parse_feature_value (fname_arr.getD 1 "")
    match tlookup rs.feature_schema.features_by_name fname with
    | none => .error ("Nonexistent feature in " ++ fname_raw ++ ": " ++ fname)
    | some fobj =>
      if (fobj.childrenFor fval).isSome then .ok [(fobj.name, fval)]
      else .error ("Feature " ++ fname ++ " doesn't have value " ++ fval)

/-- `Ruleset.parse_alias(aliasname)`: strip the sigil and look the alias up. -/
def parse_alias (rs : Ruleset) (aliasname : String) : Except String FeatureBundle :=
  match tlookup rs.aliases (strDrop aliasname 1) with
  | none => .error ("Unknown alias " ++ aliasname)
  | some b => .ok b

/-- The token loop of `parse_feature_list`: resolve each token (alias
reference when it starts with the `*` sigil, single feature assignment
otherwise) and `set` its entries into the accumulating bundle, later tokens
winning. -/
def pflGo (rs : Ruleset) : List String → FeatureBundle → Except String FeatureBundle
  | [], bundle => .ok bundle
  | f :: t, bundle =>
    match (if strTake f 1 == "*" then parse_alias rs f else parse_feature rs f) with
    | .error e => .error e
    | .ok res => pflGo rs t (res.foldl (fun b p => bset b p.1 p.2) bundle)

/-- `Ruleset.parse_feature_list(features, use_defaults)` (src/ruleset.ts):
seed the bundle with a copy of the defaults table when `use_defaults`, then
run the token loop. -/
def parse_feature_list (rs : Ruleset) (features : List String) (use_defaults : Bool) :
    Except String FeatureBundle :=
  pflGo rs features (cond use_defaults rs.defaults [])

/-- The concatenated entry stream the token loop writes, in write order
(a proof-side helper, not a source function). -/
def pflEntries (rs : Ruleset) : List String → Except String (List (String × String))
  | [] => .ok []
  | f :: t =>
    match (if strTake f 1 == "*" then parse_alias rs f else parse_feature rs f) with
    | .error e => .error e
    | .ok res =>
      match pflEntries rs t with
      | .error e => .error e
      | .ok rest => .ok (res ++ rest)

/-- `Ruleset.parse_meta_default(line)`: `{value} : [feature names]`; records
`defaults[feature] = value` for every named feature after checking the
feature exists and permits the (long-form-translated) value. -/
def parse_meta_default (rs : Ruleset) (line : List String) : Except String Ruleset :=
  if line.length < 3 then .error ("Invalid default defn: " ++ String.intercalate " " line)
  else
    match line with
    | [] => .error ("Invalid default defn: " ++ String.intercalate " " line)
    | val :: rest₀ =>
      if val = "" then .error ("Invalid default defn: " ++ String.intercalate " " line)
      else
        match rest₀ with
        | [] => .error ("Invalid default defn: " ++ String.intercalate " " line)
        | colon :: rest =>
          if colon ≠ ":" then .error ("Invalid default defn: " ++ String.intercalate " " line)
          else
            rest.foldlM
              (fun rs fname =>
                match tlookup rs.feature_schema.features_by_name fname with
                | none => .error ("Nonexistent feature " ++ fname
                    ++ " in default defn: " ++ String.intercalate " " rest)
                | some fobj =>
                  let fv := parse_feature_value val
                  if (fobj.childrenFor fv).isSome then
                    .ok { rs with defaults := bset rs.defaults fname fv }
                  else .error ("Feature " ++ fname ++ " in default defn doesn't have value "
                    ++ fv ++ ": " ++ String.intercalate " " rest))
              rs

/-- `Ruleset.parse_meta_alias(line)`: `{name} : [feature tokens]`; parses the
token list *with* `use_defaults = true` (seeding from the defaults table as
it stands at this point of the hoisting pass) and stores the bundle under the
alias name. -/
def parse_meta_alias (rs : Ruleset) (line : List String) : Except String Ruleset :=
  if line.length < 3 then .error ("Invalid alias defn: " ++ String.intercalate " " line)
  else
    match line with
    | [] => .error ("Invalid alias defn: " ++ String.intercalate " " line)
    | alias_name :: rest₀ =>
      if alias_name = "" then .error ("Invalid alias defn: " ++ String.intercalate " " line)
      else
        match rest₀ with
        | [] => .error ("Invalid alias defn: " ++ String.intercalate " " line)
        | colon :: rest =>
          if colon ≠ ":" then .error ("Invalid alias defn: " ++ String.intercalate " " line)
          else do
            let bundle ← parse_feature_list rs rest true
            .ok { rs with aliases := tset rs.aliases alias_name bundle }

/-- One line of the hoisting pass (the first constructor loop,
src/ruleset.ts): only `__meta` lines are interpreted; `default` and `alias`
update the state, `setalias` is an empty TODO body, `block` throws, anything
else is an unknown meta command.  Lines are modelled post-`tokenize_line`
(comment stripping and whitespace splitting are orthogonal to these
claims). -/
def hoist_line (rs : Ruleset) (line : List String) : Except String Ruleset :=
  if line.headD "" == "__meta" then
    match line.getD 1 "" with
    | "default" => parse_meta_default rs (line.drop 2)
    | "alias" => parse_meta_alias rs (line.drop 2)
    | "setalias" => .ok rs
    | "block" => .error "block isn't supported yet - wait for v2 or use alias"
    | m => .error ("Unknown meta command " ++ m)
  else .ok rs

/-- The whole hoisting pass over the (tokenized) lines of the rules file. -/
def hoist_pass (rs : Ruleset) (lines : List (List String)) : Except String Ruleset :=
  lines.foldlM hoist_line rs

/-- The `FeatureSchema` state the constructor builds for the gating schema
`schemaC` (`fortis` is gated by `consonantal = +`). -/
def schemaCS : FeatureSchemaS :=
  ⟨[consonantalF],
    [("Root", .mk "Root" [("Features", [consonantalF])]),
      ("consonantal", consonantalF), ("fortis", fortisF)],
    [("consonantal", ("Root", "Features")), ("fortis", ("consonantal", "+"))]⟩

/-- The `FeatureSchema` state for the one-feature schema `[fortis]`. -/
def schemaF : FeatureSchemaS :=
  ⟨[fortisF],
    [("Root", .mk "Root" [("Features", [fortisF])]), ("fortis", fortisF)],
    [("fortis", ("Root", "Features"))]⟩

/-- An empty ruleset over `schemaF`, the state before the hoisting pass. -/
def RS10 : Ruleset :=
  { base_characters := [], mods_prefixal := [], mods_combining := [],
    mods_suffixal := [], feature_schema := schemaF, defaults := [], aliases := [] }

/-! ## Theorems -/

theorem reachesFrom_nil {bundle : FeatureBundle} {f : Feature} :
    ¬ ReachesFrom bundle [] f := by
  intro h
  induction h with
  | top h => exact absurd h (List.not_mem_nil _)
  | child _ _ _ _ ih => exact ih

theorem reachesFrom_mono {bundle : FeatureBundle} {s s' : List Feature} {f : Feature}
    (hsub : ∀ x, x ∈ s → x ∈ s') (h : ReachesFrom bundle s f) :
    ReachesFrom bundle s' f := by
  induction h with
  | top h => exact .top (hsub _ h)
  | child _ hv hcs hc ih => exact .child ih hv hcs hc

theorem reachesFrom_append {bundle : FeatureBundle} {s₁ s₂ : List Feature} {f : Feature} :
    ReachesFrom bundle (s₁ ++ s₂) f ↔ ReachesFrom bundle s₁ f ∨ ReachesFrom bundle s₂ f := by
  constructor
  · intro h
    induction h with
    | top h =>
      rcases List.mem_append.mp h with h' | h'
      · exact Or.inl (.top h')
      · exact Or.inr (.top h')
    | child _ hv hcs hc ih =>
      rcases ih with h' | h'
      · exact Or.inl (.child h' hv hcs hc)
      · exact Or.inr (.child h' hv hcs hc)
  · intro h
    rcases h with h | h
    · exact reachesFrom_mono (fun x hx => List.mem_append.mpr (Or.inl hx)) h
    · exact reachesFrom_mono (fun x hx => List.mem_append.mpr (Or.inr hx)) h

/-- Lift reachability from the children of a valid node to the node itself. -/
theorem reachesFrom_of_children {bundle : FeatureBundle} {c : Feature} {v : String}
    {cs : List Feature} {f : Feature}
    (hv : bget bundle c.name = some v) (hcs : c.childrenFor v = some cs)
    (h : ReachesFrom bundle cs f) : ReachesFrom bundle [c] f := by
  induction h with
  | top h => exact .child (.top (List.mem_singleton.mpr rfl)) hv hcs h
  | child _ hv' hcs' hc ih => exact .child ih hv' hcs' hc

theorem reachesFrom_single {bundle : FeatureBundle} {c : Feature} {v : String}
    {cs : List Feature} {f : Feature}
    (hv : bget bundle c.name = some v) (hcs : c.childrenFor v = some cs) :
    ReachesFrom bundle [c] f ↔ f = c ∨ ReachesFrom bundle cs f := by
  constructor
  · intro h
    induction h with
    | top h => exact Or.inl (List.mem_singleton.mp h)
    | child hg hv' hcs' hc ih =>
      rcases ih with rfl | h'
      · rw [hv] at hv'
        cases hv'
        rw [hcs] at hcs'
        cases hcs'
        exact Or.inr (.top hc)
      · exact Or.inr (.child h' hv' hcs' hc)
  · intro h
    rcases h with rfl | h
    · exact .top (List.mem_singleton.mpr rfl)
    · exact reachesFrom_of_children hv hcs h

theorem reachesFrom_cons {bundle : FeatureBundle} {c : Feature} {rest : List Feature}
    {f : Feature} :
    ReachesFrom bundle (c :: rest) f ↔ ReachesFrom bundle [c] f ∨ ReachesFrom bundle rest f := by
  have h : c :: rest = [c] ++ rest := rfl
  rw [h, reachesFrom_append]

/-- Loop invariant for `vbLoop`: whenever the loop terminates within fuel, it
returns `.ok` exactly when every feature reachable from the current stack has
a valid entry. -/
theorem vbLoop_ok_iff {bundle : FeatureBundle} {errStr : String} :
    ∀ (fuel : Nat) (stack : List Feature) (r : Except String Unit),
      vbLoop bundle errStr fuel stack = some r →
      (r = .ok () ↔ ∀ f, ReachesFrom bundle stack f → entryValid bundle f) := by
  intro fuel
  induction fuel with
  | zero => intro stack r h; exact absurd h (by simp [vbLoop])
  | succ n ih =>
    intro stack r h
    match stack with
    | [] =>
      simp only [vbLoop, Option.some.injEq] at h
      subst h
      simp only [true_iff]
      exact fun f hf => absurd hf reachesFrom_nil
    | curr :: rest =>
      rw [vbLoop] at h
      split at h
      · -- bundle has no entry for `curr`
        rename_i hbv
        simp only [Option.some.injEq] at h
        subst h
        constructor
        · intro hc; exact absurd hc (by simp)
        · intro hall
          rcases hall curr (.top (List.mem_cons_self _ _)) with ⟨v, hv, _⟩
          rw [hbv] at hv
          cases hv
      · rename_i v hbv
        split at h
        · -- the value is not a permitted label
          rename_i hcf
          simp only [Option.some.injEq] at h
          subst h
          constructor
          · intro hc; exact absurd hc (by simp)
          · intro hall
            rcases hall curr (.top (List.mem_cons_self _ _)) with ⟨v', hv', hs⟩
            rw [hbv] at hv'
            cases hv'
            rw [hcf] at hs
            cases hs
        · rename_i children hcf
          have hvalid : entryValid bundle curr := ⟨v, hbv, by rw [hcf]; rfl⟩
          by_cases hlen : children.length > 0
          · rw [if_pos hlen] at h
            rw [ih _ _ h]
            constructor
            · intro hall f hf
              rw [reachesFrom_cons] at hf
              rcases hf with hf | hf
              · rw [reachesFrom_single hbv hcf] at hf
                rcases hf with rfl | hf
                · exact hvalid
                · exact hall f (reachesFrom_append.mpr (Or.inl hf))
              · exact hall f (reachesFrom_append.mpr (Or.inr hf))
            · intro hall f hf
              rw [reachesFrom_append] at hf
              rcases hf with hf | hf
              · exact hall f (reachesFrom_cons.mpr
                  (Or.inl (reachesFrom_of_children hbv hcf hf)))
              · exact hall f (reachesFrom_cons.mpr (Or.inr hf))
          · rw [if_neg hlen] at h
            have hnil : children = [] := List.length_eq_zero.mp (Nat.eq_zero_of_not_pos hlen)
            subst hnil
            rw [ih _ _ h]
            constructor
            · intro hall f hf
              rw [reachesFrom_cons] at hf
              rcases hf with hf | hf
              · rw [reachesFrom_single hbv hcf] at hf
                rcases hf with rfl | hf
                · exact hvalid
                · exact absurd hf reachesFrom_nil
              · exact hall f hf
            · intro hall f hf
              exact hall f (reachesFrom_cons.mpr (Or.inr hf))

/-- C1 (counterexample): the claim asserts the bundle `{consonantal:-, fortis:-}`
is rejected by `validate_bundle` on the gating schema; in fact the walk never
visits `fortis` when `consonantal` is `-`, the extra entry is ignored, and the
bundle is accepted. -/
theorem validate_bundle_extra_unreachable_entry_accepted :
    validate_bundle schemaC [("consonantal", "-"), ("fortis", "-")] "" 10
      = some (.ok ()) := by decide

/-- C1 (amended): `validate_bundle` accepts a bundle iff every feature reachable
from the bundle's own value choices, walked recursively from the top-level
features, has an explicit entry with a permitted label.  For the gating schema,
`{consonantal:+, fortis:+}` is accepted and `{consonantal:+}` is rejected,
but `{consonantal:-, fortis:-}` is accepted: entries for unreachable features
are ignored, not rejected. -/
theorem validate_bundle_accepts_iff_comprehensive :
    (∀ (schema : Schema) (bundle : FeatureBundle) (errStr : String) (fuel : Nat)
        (r : Except String Unit),
      validate_bundle schema bundle errStr fuel = some r →
      (r = .ok () ↔ BundleComprehensive schema bundle)) ∧
    validate_bundle schemaC [("consonantal", "+"), ("fortis", "+")] "" 10
      = some (.ok ()) ∧
    (validate_bundle schemaC [("consonantal", "+")] "" 10).map Except.isOk
      = some false ∧
    validate_bundle schemaC [("consonantal", "-"), ("fortis", "-")] "" 10
      = some (.ok ()) := by
  refine ⟨fun schema bundle errStr fuel r h => vbLoop_ok_iff fuel schema r h,
    by decide, by decide, by decide⟩

/-- Witness for C1's amended theorem: instantiating the general equivalence at
the accepted example bundle. -/
theorem validate_bundle_accepts_iff_comprehensive_witness :
    (Except.ok () = (.ok () : Except String Unit) ↔
      BundleComprehensive schemaC [("consonantal", "+"), ("fortis", "+")]) :=
  validate_bundle_accepts_iff_comprehensive.1 schemaC
    [("consonantal", "+"), ("fortis", "+")] "" 10 (.ok ()) (by decide)

theorem bget_nil (k : String) : bget [] k = none := rfl

theorem bget_cons (p : String × String) (t : FeatureBundle) (k : String) :
    bget (p :: t) k = if p.1 = k then some p.2 else bget t k := by
  by_cases h : p.1 = k
  · rw [if_pos h, bget, List.find?_cons_of_pos _ (by simp [h])]
    rfl
  · rw [if_neg h, bget, List.find?_cons_of_neg _ (by simp [h])]
    rfl

theorem bget_bset (b : FeatureBundle) (k v k' : String) :
    bget (bset b k v) k' = if k' = k then some v else bget b k' := by
  induction b with
  | nil =>
    rw [bset, bget_cons]
    by_cases h : k' = k
    · rw [if_pos h, if_pos h.symm]
    · rw [if_neg h, if_neg (fun hc => h hc.symm), bget_nil]
  | cons p t ih =>
    rw [bset]
    by_cases hp : p.1 = k
    · rw [if_pos (by simp [hp]), bget_cons, bget_cons, hp]
      by_cases h : k' = k
      · rw [if_pos h.symm, if_pos h]
      · rw [if_neg (fun hc => h hc.symm), if_neg h, if_neg (fun hc => h hc.symm)]
    · rw [if_neg (by simp [hp]), bget_cons, bget_cons]
      by_cases hq : p.1 = k'
      · have h : ¬ k' = k := fun hc => hp (hq.trans hc)
        rw [if_pos hq, if_pos hq, if_neg h]
      · rw [if_neg hq, if_neg hq, ih]

theorem bget_foldl_bset (l : List (String × String)) (b : FeatureBundle) (k : String) :
    bget (l.foldl (fun nb p => bset nb p.1 p.2) b) k
      = firstSome ((l.reverse.find? (fun p => p.1 == k)).map (fun p => p.2))
          (bget b k) := by
  induction l generalizing b with
  | nil => rfl
  | cons p t ih =>
    rw [List.foldl_cons, ih, List.reverse_cons, List.find?_append]
    cases hf : t.reverse.find? (fun q => q.1 == k) with
    | some q => rfl
    | none =>
      by_cases h : p.1 = k
      · rw [List.find?_cons_of_pos _ (by simp [h]), bget_bset]
        simp [firstSome, h]
      · rw [List.find?_cons_of_neg _ (by simp [h]), bget_bset,
          if_neg (fun hc => h hc.symm)]
        rfl

theorem find?_reverse_of_nodup_keys (l : List (String × String)) (k : String)
    (h : (l.map (fun p => p.1)).Nodup) :
    l.reverse.find? (fun p => p.1 == k) = l.find? (fun p => p.1 == k) := by
  induction l with
  | nil => rfl
  | cons p t ih =>
    simp only [List.map_cons, List.nodup_cons] at h
    rw [List.reverse_cons, List.find?_append, ih h.2]
    by_cases hp : p.1 = k
    · have hnone : t.find? (fun q => q.1 == k) = none := by
        rw [List.find?_eq_none]
        intro q hq hbeq
        exact h.1 (by
          have hqk : q.1 = k := by simpa using hbeq
          rw [hp, ← hqk]
          exact List.mem_map.mpr ⟨q, hq, rfl⟩)
      have hone : List.find? (fun q => q.1 == k) [p] = some p := by simp [hp]
      rw [hnone, hone, List.find?_cons_of_pos _ (by simp [hp])]
      rfl
    · have hone : List.find? (fun q => q.1 == k) [p] = none := by simp [hp]
      rw [hone, List.find?_cons_of_neg _ (by simp [hp])]
      cases t.find? (fun q => q.1 == k) <;> rfl

/-- `modify_bundle` pointwise: the patch's entries override the base's, all
other base entries are unchanged.  (The no-duplicate hypothesis is the `Map`
invariant the source maintains by construction.) -/
theorem bget_modify_bundle (base patch : FeatureBundle) (k : String)
    (h : (bkeys patch).Nodup) :
    bget (modify_bundle base patch) k
      = firstSome (bget patch k) (bget base k) := by
  rw [modify_bundle, bget_foldl_bset, find?_reverse_of_nodup_keys _ _ h]
  rfl

theorem bget_isSome_of_mem_keys {b : FeatureBundle} {k : String}
    (h : k ∈ bkeys b) : (bget b k).isSome := by
  induction b with
  | nil => exact absurd h (List.not_mem_nil _)
  | cons p t ih =>
    rw [bget_cons]
    by_cases hp : p.1 = k
    · rw [if_pos hp]; rfl
    · rw [if_neg hp]
      rcases List.mem_cons.mp h with h' | h'
      · exact absurd h'.symm hp
      · exact ih h'

theorem bget_eq_none_of_not_mem_keys {b : FeatureBundle} {k : String}
    (h : k ∉ bkeys b) : bget b k = none := by
  induction b with
  | nil => rfl
  | cons p t ih =>
    rw [bget_cons, if_neg (fun hc => h (by rw [← hc]; exact List.mem_cons_self _ _))]
    exact ih (fun hc => h (List.mem_cons.mpr (Or.inr hc)))

theorem mem_dedupKeepFirst_iff {l : List String} {x : String} :
    x ∈ dedupKeepFirst l ↔ x ∈ l := by
  have hgen : ∀ (l acc : List String),
      x ∈ l.foldl (fun acc x => if acc.contains x then acc else acc ++ [x]) acc ↔
        x ∈ acc ∨ x ∈ l := by
    intro l
    induction l with
    | nil => intro acc; simp
    | cons y t ih =>
      intro acc
      rw [List.foldl_cons]
      by_cases hc : acc.contains y
      · rw [if_pos hc, ih]
        constructor
        · intro h; rcases h with h | h
          · exact Or.inl h
          · exact Or.inr (List.mem_cons.mpr (Or.inr h))
        · intro h
          rcases h with h | h
          · exact Or.inl h
          · rcases List.mem_cons.mp h with rfl | h'
            · exact Or.inl (by simpa using hc)
            · exact Or.inr h'
      · rw [if_neg hc, ih]
        constructor
        · intro h
          rcases h with h | h
          · rcases List.mem_append.mp h with h' | h'
            · exact Or.inl h'
            · exact Or.inr (List.mem_cons.mpr (Or.inl (by simpa using h')))
          · exact Or.inr (List.mem_cons.mpr (Or.inr h))
        · intro h
          rcases h with h | h
          · exact Or.inl (List.mem_append.mpr (Or.inl h))
          · rcases List.mem_cons.mp h with rfl | h'
            · exact Or.inl (List.mem_append.mpr (Or.inr (List.mem_singleton.mpr rfl)))
            · exact Or.inr h'
  rw [dedupKeepFirst, hgen]
  simp

theorem amGo_spec (base modifier : FeatureBundle) :
    ∀ (ks : List String) (res : FeatureBundle),
      (∀ k ∈ ks, (bget modifier k).isSome ∨ (bget base k).isSome) →
      ∃ r, amGo base modifier ks res = .ok r ∧
        ∀ k', bget r k' =
          if k' ∈ ks then firstSome (bget modifier k') (bget base k')
          else bget res k' := by
  intro ks
  induction ks with
  | nil =>
    intro res _
    exact ⟨res, rfl, fun k' => by rw [if_neg (List.not_mem_nil _)]⟩
  | cons k t ih =>
    intro res hks
    have hk := hks k (List.mem_cons_self _ _)
    have ht : ∀ k ∈ t, (bget modifier k).isSome ∨ (bget base k).isSome :=
      fun k hk => hks k (List.mem_cons.mpr (Or.inr hk))
    cases hm : bget modifier k with
    | some v =>
      rcases ih (bset res k v) ht with ⟨r, hr, hget⟩
      refine ⟨r, by rw [amGo, hm]; exact hr, fun k' => ?_⟩
      rw [hget k']
      by_cases hkt : k' ∈ t
      · rw [if_pos hkt, if_pos (List.mem_cons.mpr (Or.inr hkt))]
      · rw [if_neg hkt, bget_bset]
        by_cases hkk : k' = k
        · subst hkk
          rw [if_pos rfl, if_pos (List.mem_cons_self _ _), hm]
          rfl
        · rw [if_neg hkk, if_neg (by
            intro hc
            rcases List.mem_cons.mp hc with hc' | hc'
            · exact hkk hc'
            · exact hkt hc')]
    | none =>
      cases hb : bget base k with
      | some v =>
        rcases ih (bset res k v) ht with ⟨r, hr, hget⟩
        refine ⟨r, by rw [amGo, hm, hb]; exact hr, fun k' => ?_⟩
        rw [hget k']
        by_cases hkt : k' ∈ t
        · rw [if_pos hkt, if_pos (List.mem_cons.mpr (Or.inr hkt))]
        · rw [if_neg hkt, bget_bset]
          by_cases hkk : k' = k
          · subst hkk
            rw [if_pos rfl, if_pos (List.mem_cons_self _ _), hm, hb]
            rfl
          · rw [if_neg hkk, if_neg (by
              intro hc
              rcases List.mem_cons.mp hc with hc' | hc'
              · exact hkk hc'
              · exact hkt hc')]
      | none =>
        rw [hm] at hk
        rw [hb] at hk
        rcases hk with hk | hk <;> exact absurd hk (by simp)

theorem applyRuleGo_spec (bundle : FeatureBundle) (msg : String) :
    ∀ (rest : List (FeatureBundle × FeatureBundle)) (acc : Option FeatureBundle),
      applyRuleGo bundle msg rest acc =
        match acc, rest.filter (fun r => bundleMatches r.1 bundle) with
        | some a, [] => .ok (some a)
        | some _, _ :: _ => .error msg
        | none, [] => .ok none
        | none, [r] => .ok (some r.2)
        | none, _ :: _ :: _ => .error msg := by
  intro rest
  induction rest with
  | nil => intro acc; cases acc <;> rfl
  | cons hd t ih =>
    intro acc
    obtain ⟨lhs, rhs⟩ := hd
    have hunf : applyRuleGo bundle msg ((lhs, rhs) :: t) acc
        = if bundleMatches lhs bundle then
            match acc with
            | some _ => .error msg
            | none => applyRuleGo bundle msg t (some rhs)
          else
            applyRuleGo bundle msg t acc := rfl
    rw [hunf]
    cases hm : bundleMatches lhs bundle with
    | false =>
      rw [if_neg (by simp [hm]), ih]
      have hf : (((lhs, rhs) :: t).filter (fun r => bundleMatches r.1 bundle))
          = t.filter (fun r => bundleMatches r.1 bundle) := by
        rw [List.filter_cons_of_neg (by simpa using hm)]
      rw [hf]
    | true =>
      rw [if_pos (by simp [hm])]
      have hf : (((lhs, rhs) :: t).filter (fun r => bundleMatches r.1 bundle))
          = (lhs, rhs) :: t.filter (fun r => bundleMatches r.1 bundle) := by
        rw [List.filter_cons_of_pos (by simpa using hm)]
      rw [hf]
      cases acc with
      | some a => rfl
      | none =>
        rw [ih]
        cases ht : t.filter (fun r => bundleMatches r.1 bundle) with
        | nil => rfl
        | cons x xs => rfl

/-- C4: when a diacritic's rule set is applied, a rule matches exactly when
every `feature:value` pair of its match bundle equals the working bundle's
entry; zero matching rules leaves the bundle unchanged, exactly one applies
its patch, and two or more matching rules yield the ambiguous-rule error
naming the diacritic (`rule_raw`) and the segment (`segment_raw`). -/
theorem apply_rule_zero_one_many :
    (∀ lhs bundle : FeatureBundle,
      bundleMatches lhs bundle = true ↔ ∀ p ∈ lhs, bget bundle p.1 = some p.2) ∧
    (∀ (rule : List (FeatureBundle × FeatureBundle)) (bundle : FeatureBundle)
        (rule_raw segment_raw : String),
      apply_rule rule bundle rule_raw segment_raw =
        match rule.filter (fun r => bundleMatches r.1 bundle) with
        | [] => .ok bundle
        | [r] => .ok (modify_bundle bundle r.2)
        | _ :: _ :: _ =>
          .error s!"Rule {rule_raw} has multiple matches for {segment_raw}") := by
  constructor
  · intro lhs bundle
    rw [bundleMatches, List.all_eq_true]
    constructor
    · intro h p hp
      have := h p hp
      simpa using this
    · intro h p hp
      simp [h p hp]
  · intro rule bundle rule_raw segment_raw
    rw [apply_rule, applyRuleGo_spec]
    cases hf : rule.filter (fun r => bundleMatches r.1 bundle) with
    | nil => rfl
    | cons x xs => cases xs <;> rfl

/-- C3 (counterexample): the patch application performed during
featuralization (`apply_rule` via `modify_bundle`) does *not* re-validate the
resulting bundle: applying the patch `{consonantal:+}` to the comprehensive
bundle `{consonantal:-}` succeeds, yet the resulting bundle fails
`validate_bundle` (it is missing the now-reachable `fortis`). -/
theorem apply_rule_returns_bundle_failing_validation :
    apply_rule [([("consonantal", "-")], [("consonantal", "+")])]
        [("consonantal", "-")] "x" "seg"
      = .ok [("consonantal", "+")] ∧
    (validate_bundle schemaC [("consonantal", "+")] "Runtime error" 10).map
        Except.isOk
      = some false :=
  ⟨by decide, by decide⟩

/-- C3 (amended): `apply_modifier` returns the base bundle with every patch
entry overriding the base's entry for the same feature, leaving other base
entries unchanged; every key in base ∪ patch always resolves, so the
missing-base-value error is unreachable; `apply_modifier` itself re-validates
the result before returning it — but the patch application performed during
featuralization (`modify_bundle`) does not (see the counterexample). -/
theorem apply_modifier_overrides_and_revalidates :
    (∀ base modifier : FeatureBundle,
      ∃ r, applyModifierBuild base modifier = .ok r ∧
        ∀ k, bget r k = firstSome (bget modifier k) (bget base k)) ∧
    (∀ base patch : FeatureBundle, (bkeys patch).Nodup →
      ∀ k, bget (modify_bundle base patch) k
        = firstSome (bget patch k) (bget base k)) ∧
    (∀ (schema : Schema) (base modifier : FeatureBundle) (fuel : Nat)
        (res : FeatureBundle),
      apply_modifier schema base modifier fuel = some (.ok res) →
      validate_bundle schema res "Runtime error" fuel = some (.ok ())) := by
  refine ⟨?_, fun base patch h k => bget_modify_bundle base patch k h, ?_⟩
  · intro base modifier
    have hks : ∀ k ∈ dedupKeepFirst (bkeys base ++ bkeys modifier),
        (bget modifier k).isSome ∨ (bget base k).isSome := by
      intro k hk
      rcases List.mem_append.mp (mem_dedupKeepFirst_iff.mp hk) with h | h
      · exact Or.inr (bget_isSome_of_mem_keys h)
      · exact Or.inl (bget_isSome_of_mem_keys h)
    rcases amGo_spec base modifier _ [] hks with ⟨r, hr, hget⟩
    refine ⟨r, hr, fun k => ?_⟩
    rw [hget k]
    by_cases hk : k ∈ dedupKeepFirst (bkeys base ++ bkeys modifier)
    · rw [if_pos hk]
    · rw [if_neg hk, bget_nil]
      have hnotmem := fun h => hk (mem_dedupKeepFirst_iff.mpr h)
      have h1 : bget modifier k = none := bget_eq_none_of_not_mem_keys
        (fun h => hnotmem (List.mem_append.mpr (Or.inr h)))
      have h2 : bget base k = none := bget_eq_none_of_not_mem_keys
        (fun h => hnotmem (List.mem_append.mpr (Or.inl h)))
      rw [h1, h2]
      rfl
  · intro schema base modifier fuel res h
    rw [apply_modifier] at h
    cases hb : applyModifierBuild base modifier with
    | error e => rw [hb] at h; cases h
    | ok r =>
      rw [hb] at h
      dsimp only at h
      cases hv : validate_bundle schema r "Runtime error" fuel with
      | none => rw [hv] at h; cases h
      | some v =>
        rw [hv] at h
        simp only [Option.map_some', Option.some.injEq] at h
        cases v with
        | error e => cases h
        | ok u =>
          simp only [Except.map] at h
          cases h
          exact hv

/-- Witness for C3's amended theorem: the override semantics evaluated at a
concrete base and patch. -/
theorem apply_modifier_overrides_and_revalidates_witness :
    bget (modify_bundle [("consonantal", "-")] [("consonantal", "+")]) "consonantal"
      = firstSome (bget [("consonantal", "+")] "consonantal")
          (bget [("consonantal", "-")] "consonantal") :=
  apply_modifier_overrides_and_revalidates.2.1
    [("consonantal", "-")] [("consonantal", "+")] (by decide) "consonantal"

/-! ### Lemmas about the greedy matcher -/
theorem foldl_pick_le {P : Nat → Prop} [DecidablePred P] :
    ∀ (l : List Nat) (acc L : Nat), acc ≤ L → (∀ n ∈ l, n ≤ L) →
      l.foldl (fun a n => if P n then n else a) acc ≤ L := by
  intro l
  induction l with
  | nil => intro acc L h _; exact h
  | cons x t ih =>
    intro acc L hacc hl
    rw [List.foldl_cons]
    refine ih _ L ?_ (fun n hn => hl n (List.mem_cons.mpr (Or.inr hn)))
    by_cases hx : P x
    · rw [if_pos hx]; exact hl x (List.mem_cons_self _ _)
    · rw [if_neg hx]; exact hacc

theorem foldl_pick_result {P : Nat → Prop} [DecidablePred P] :
    ∀ (l : List Nat) (acc : Nat),
      l.foldl (fun a n => if P n then n else a) acc = acc ∨
      (l.foldl (fun a n => if P n then n else a) acc ∈ l ∧
        P (l.foldl (fun a n => if P n then n else a) acc)) := by
  intro l
  induction l with
  | nil => intro acc; exact Or.inl rfl
  | cons x t ih =>
    intro acc
    rw [List.foldl_cons]
    by_cases hx : P x
    · rw [if_pos hx]
      rcases ih x with h | h
      · exact Or.inr ⟨by rw [h]; exact List.mem_cons_self _ _, by rw [h]; exact hx⟩
      · exact Or.inr ⟨List.mem_cons.mpr (Or.inr h.1), h.2⟩
    · rw [if_neg hx]
      rcases ih acc with h | h
      · exact Or.inl h
      · exact Or.inr ⟨List.mem_cons.mpr (Or.inr h.1), h.2⟩

theorem foldl_pick_max {P : Nat → Prop} [DecidablePred P] :
    ∀ (l : List Nat) (acc : Nat), l.Pairwise (· < ·) →
      ∀ m ∈ l, P m → m ≤ l.foldl (fun a n => if P n then n else a) acc := by
  intro l
  induction l with
  | nil => intro acc _ m hm; exact absurd hm (List.not_mem_nil _)
  | cons x t ih =>
    intro acc hp m hm hPm
    rw [List.pairwise_cons] at hp
    rw [List.foldl_cons]
    rcases List.mem_cons.mp hm with rfl | hmt
    · rw [if_pos hPm]
      rcases foldl_pick_result (P := P) t m with h | h
      · rw [h]
      · exact Nat.le_of_lt (hp.1 _ h.1)
    · exact ih _ hp.2 m hmt hPm

theorem pairwise_lt_range' : ∀ (n s : Nat), List.Pairwise (· < ·) (List.range' s n) := by
  intro n
  induction n with
  | zero => intro s; exact List.Pairwise.nil
  | succ m ih =>
    intro s
    rw [List.range'_succ, List.pairwise_cons]
    exact ⟨fun y hy => Nat.lt_of_lt_of_le (Nat.lt_succ_self s) (List.mem_range'_1.mp hy).1,
      ih (s + 1)⟩

theorem longest_len_le (set : List String) (s : List Char) :
    longest_len set s ≤ s.length := by
  refine foldl_pick_le _ _ _ (Nat.zero_le _) (fun n hn => ?_)
  have h := (List.mem_range'_1.mp hn).2
  omega

theorem longest_len_mem (set : List String) (s : List Char)
    (h : longest_len set s ≠ 0) :
    (s.take (longest_len set s)).asString ∈ set ∧ 1 ≤ longest_len set s := by
  rcases foldl_pick_result (P := fun n => (s.take n).asString ∈ set)
      (List.range' 1 s.length) 0 with h' | h'
  · exact absurd h' h
  · exact ⟨h'.2, (List.mem_range'_1.mp h'.1).1⟩

theorem longest_len_max (set : List String) (s : List Char) :
    ∀ m, 1 ≤ m → m ≤ s.length → (s.take m).asString ∈ set →
      m ≤ longest_len set s := by
  intro m h1 h2 hmem
  exact foldl_pick_max _ _ (pairwise_lt_range' _ _) m
    (List.mem_range'_1.mpr ⟨h1, by omega⟩) hmem

theorem greedyGo_rem_le (set : List String) :
    ∀ (fuel : Nat) (s : List Char), ((greedyGo set fuel s).2).length ≤ s.length := by
  intro fuel
  induction fuel with
  | zero => intro s; exact Nat.le_refl _
  | succ n ih =>
    intro s
    rw [greedyGo]
    by_cases h : longest_len set s = 0
    · rw [if_pos h]
    · rw [if_neg h]
      exact Nat.le_trans (ih (s.drop (longest_len set s)))
        (by rw [List.length_drop]; omega)

theorem greedyGo_fuel_irrel (set : List String) :
    ∀ (f₁ f₂ : Nat) (s : List Char), s.length < f₁ → s.length < f₂ →
      greedyGo set f₁ s = greedyGo set f₂ s := by
  intro f₁
  induction f₁ with
  | zero => intro f₂ s h₁ _; exact absurd h₁ (Nat.not_lt_zero _)
  | succ a ih =>
    intro f₂ s h₁ h₂
    match f₂ with
    | 0 => exact absurd h₂ (Nat.not_lt_zero _)
    | b + 1 =>
      rw [greedyGo, greedyGo]
      by_cases h : longest_len set s = 0
      · rw [if_pos h, if_pos h]
      · rw [if_neg h, if_neg h]
        have hn1 : 1 ≤ longest_len set s := (longest_len_mem set s h).2
        have hnle : longest_len set s ≤ s.length := longest_len_le set s
        have hlen : (s.drop (longest_len set s)).length < a := by
          rw [List.length_drop]; omega
        have hlen' : (s.drop (longest_len set s)).length < b := by
          rw [List.length_drop]; omega
        rw [ih b (s.drop (longest_len set s)) hlen hlen']

theorem greedyRaw_eq (set : List String) (s : List Char) :
    greedyRaw set s =
      if longest_len set s = 0 then []
      else (s.take (longest_len set s)).asString
        :: greedyRaw set (s.drop (longest_len set s)) := by
  rw [greedyRaw, greedyRaw, greedyGo]
  by_cases h : longest_len set s = 0
  · rw [if_pos h, if_pos h]
  · rw [if_neg h, if_neg h]
    have hn1 : 1 ≤ longest_len set s := (longest_len_mem set s h).2
    have hnle : longest_len set s ≤ s.length := longest_len_le set s
    rw [greedyGo_fuel_irrel set s.length ((s.drop (longest_len set s)).length + 1)
      (s.drop (longest_len set s)) (by rw [List.length_drop]; omega)
      (Nat.lt_succ_self _)]

theorem greedy_match_rem_eq (set : List String) (s : List Char) :
    (greedy_match set s).2 =
      if longest_len set s = 0 then s
      else (greedy_match set (s.drop (longest_len set s))).2 := by
  rw [greedy_match, greedy_match, greedyGo]
  by_cases h : longest_len set s = 0
  · rw [if_pos h, if_pos h]
  · rw [if_neg h, if_neg h]
    have hn1 : 1 ≤ longest_len set s := (longest_len_mem set s h).2
    have hnle : longest_len set s ≤ s.length := longest_len_le set s
    rw [greedyGo_fuel_irrel set s.length ((s.drop (longest_len set s)).length + 1)
      (s.drop (longest_len set s)) (by rw [List.length_drop]; omega)
      (Nat.lt_succ_self _)]

theorem greedy_match_rem_le (set : List String) (s : List Char) :
    ((greedy_match set s).2).length ≤ s.length :=
  greedyGo_rem_le set (s.length + 1) s

/-- C5: the greedy matcher is deterministic (it is a function) and maximal:
`longest_len` is exactly the length of the longest nonempty prefix of the
scan position that is in the glyph set (first two conjuncts), the scan
consumes exactly that prefix at each position and stops at the first position
with no matching prefix, which is where the remainder starts (next two
conjuncts), and on glyph set `{ts, t, s}` with input `"ts"` the match is the
single glyph `"ts"`, never `"t"` followed by `"s"`. -/
theorem greedy_match_longest_and_deterministic :
    (∀ (set : List String) (s : List Char), longest_len set s ≠ 0 →
      (s.take (longest_len set s)).asString ∈ set ∧
      ∀ m, 1 ≤ m → m ≤ s.length → (s.take m).asString ∈ set →
        m ≤ longest_len set s) ∧
    (∀ (set : List String) (s : List Char), longest_len set s = 0 →
      ∀ m, 1 ≤ m → m ≤ s.length → (s.take m).asString ∉ set) ∧
    (∀ (set : List String) (s : List Char),
      greedyRaw set s =
        if longest_len set s = 0 then []
        else (s.take (longest_len set s)).asString
          :: greedyRaw set (s.drop (longest_len set s))) ∧
    (∀ (set : List String) (s : List Char),
      (greedy_match set s).2 =
        if longest_len set s = 0 then s
        else (greedy_match set (s.drop (longest_len set s))).2) ∧
    greedy_match ["ts", "t", "s"] "ts".data = (["ts"], []) := by
  refine ⟨?_, ?_, greedyRaw_eq, greedy_match_rem_eq, by decide⟩
  · intro set s h
    exact ⟨(longest_len_mem set s h).1, longest_len_max set s⟩
  · intro set s h m h1 h2 hmem
    have := longest_len_max set s m h1 h2 hmem
    omega

/-- Witness for C5: on glyph set `{ts, t, s}` and input `"ts"`, the matched
prefix is in the set and position-0 matching is maximal at length 2. -/
theorem greedy_match_longest_and_deterministic_witness :
    (("ts".data.take (longest_len ["ts", "t", "s"] "ts".data)).asString
        ∈ ["ts", "t", "s"]) ∧
    2 ≤ longest_len ["ts", "t", "s"] "ts".data :=
  ⟨(greedy_match_longest_and_deterministic.1 ["ts", "t", "s"] "ts".data
      (by decide)).1,
    (greedy_match_longest_and_deterministic.1 ["ts", "t", "s"] "ts".data
      (by decide)).2 2 (by decide) (by decide) (by decide)⟩

/-! ### Termination of the tokenizer loop (C8) -/
theorem parse_loop_total (rs : Ruleset) :
    ∀ (fuel : Nat) (seg : Segment) (rem : List Char), rem.length < fuel →
      (parse_loop rs fuel seg rem).isSome := by
  intro fuel
  induction fuel with
  | zero => intro seg rem h; exact absurd h (Nat.not_lt_zero _)
  | succ n ih =>
    intro seg rem hlt
    have hunf : parse_loop rs (n + 1) seg rem =
        (let last := rem.length
        let br := greedy_match (tkeys rs.base_characters) rem
        let seg1 := br.1.foldl Segment.add_base seg
        let cr := greedy_match (tkeys rs.mods_combining) br.2
        match seg1.add_combinings cr.1 with
        | .error e => some (.error e)
        | .ok seg2 =>
          let sr := greedy_match (tkeys rs.mods_suffixal) cr.2
          match seg2.add_suffixes sr.1 with
          | .error e => some (.error e)
          | .ok seg3 =>
            if sr.2.length ≠ last then parse_loop rs n seg3 sr.2
            else some (.ok (seg3, sr.2))) := rfl
    rw [hunf]
    simp only
    cases hc : Segment.add_combinings
        ((greedy_match (tkeys rs.base_characters) rem).1.foldl Segment.add_base seg)
        ((greedy_match (tkeys rs.mods_combining)
          (greedy_match (tkeys rs.base_characters) rem).2).1) with
    | error e => rfl
    | ok seg2 =>
      dsimp only
      cases hs : Segment.add_suffixes seg2
          ((greedy_match (tkeys rs.mods_suffixal)
            (greedy_match (tkeys rs.mods_combining)
              (greedy_match (tkeys rs.base_characters) rem).2).2).1) with
      | error e => rfl
      | ok seg3 =>
        dsimp only
        set sr2 := (greedy_match (tkeys rs.mods_suffixal)
          (greedy_match (tkeys rs.mods_combining)
            (greedy_match (tkeys rs.base_characters) rem).2).2).2 with hsr2
        have hle : sr2.length ≤ rem.length := by
          rw [hsr2]
          exact Nat.le_trans (greedy_match_rem_le _ _)
            (Nat.le_trans (greedy_match_rem_le _ _) (greedy_match_rem_le _ _))
        by_cases hne : sr2.length ≠ rem.length
        · rw [if_pos hne]
          exact ih seg3 sr2 (by omega)
        · rw [if_neg hne]
          rfl

/-- C8: the tokenizer terminates on every input.  `greedy_match` never
returns a remainder longer than its input, so each `do..while` iteration
either strictly shrinks the remainder or is the final iteration; hence
`remainder.length + 1` units of fuel always complete the loop. -/
theorem tokenizer_terminates :
    (∀ (set : List String) (fuel : Nat) (s : List Char),
      ((greedyGo set fuel s).2).length ≤ s.length) ∧
    (∀ (rs : Ruleset) (fuel : Nat) (seg : Segment) (rem : List Char),
      rem.length < fuel → (parse_loop rs fuel seg rem).isSome) :=
  ⟨fun set fuel s => greedyGo_rem_le set fuel s,
    fun rs fuel seg rem h => parse_loop_total rs fuel seg rem h⟩

/-! ### Set-collapsing of repeated matches (C9) and tokenizer errors (C7) -/
theorem dedupKeepFirst_nodup : ∀ l : List String, (dedupKeepFirst l).Nodup := by
  have hgen : ∀ (l acc : List String), acc.Nodup →
      (l.foldl (fun acc x => if acc.contains x then acc else acc ++ [x]) acc).Nodup := by
    intro l
    induction l with
    | nil => intro acc h; exact h
    | cons x t ih =>
      intro acc h
      rw [List.foldl_cons]
      by_cases hc : acc.contains x
      · rw [if_pos hc]; exact ih acc h
      · rw [if_neg hc]
        refine ih _ ?_
        rw [List.nodup_append]
        refine ⟨h, List.nodup_singleton x, fun a ha hb => ?_⟩
        have hx : x ∉ acc := by simpa using hc
        have hax : a = x := List.mem_singleton.mp hb
        subst hax
        exact hx ha
  intro l
  exact hgen l [] List.nodup_nil

/-- C9: within one scanning phase the greedy matcher collects matches into a
`Set`, so repeated occurrences of one glyph collapse: the match list of any
phase is duplicate-free; `"tt"` against base set `{t}` tokenizes to a single
`UnitSegment`, and the doubled suffix in `"tss"` is attached to its unit only
once. -/
theorem greedy_phase_collapses_repeats :
    (∀ (set : List String) (s : List Char), ((greedy_match set s).1).Nodup) ∧
    parse_segment RS9 "tt" = .ok ⟨[⟨"t", [], [], []⟩], "tt", []⟩ ∧
    parse_segment RS9 "tss" = .ok ⟨[⟨"t", [], [], ["s"]⟩], "tss", []⟩ :=
  ⟨fun set s => dedupKeepFirst_nodup _, by decide, by decide⟩

/-- C7: a segment in which no base character is ever found does *not* reach
the `No base char found` check: the first loop iteration already calls
`add_combinings`, which dereferences `this.curr` (`units[-1]`, i.e.
`undefined`) and crashes with a `TypeError`.  Evaluated at the failing input
`"q"` against `RS9` (whose only base is `t`). -/
theorem parse_segment_no_base_crashes_with_type_error :
    parse_segment RS9 "q" = .error
      "TypeError: Cannot read properties of undefined (reading 'combining_modifiers')" := by
  decide

/-- Witness for C8: the loop completes immediately on an empty remainder. -/
theorem tokenizer_terminates_witness :
    (parse_loop RS9 1 (Segment.init "x") []).isSome = true :=
  tokenizer_terminates.2 RS9 1 (Segment.init "x") [] (by decide)

/-! ### The normalization-equivalence check of `featuralize` (C2) -/
/-- C2 (counterexample): a ruleset every part of which passes load-time
validation (base bundle comprehensive, every modifier rule's patch reachable
from its match), and an input whose primary featuralization succeeds, on
which `featuralize` nevertheless throws: the input `bqp` is not in canonical
diacritic order, and re-featuralizing its canonical form `bpq` applies `p`
first, after which *both* rules of `q` match — the recursive call raises the
ambiguous-rule error, which propagates out of the normalization check. -/
theorem featuralize_normalization_check_can_throw :
    parse_segment RS2 "bqp" = .ok ⟨[⟨"b", [], [], ["q", "p"]⟩], "bqp", []⟩ ∧
    (⟨[⟨"b", [], [], ["q", "p"]⟩], "bqp", []⟩ : Segment).units.mapM (featuralize_unit RS2)
      = .ok [[("f", "+"), ("g", "+")]] ∧
    validate_bundle schema2.top [("f", "-"), ("g", "-")] "" 10 = some (.ok ()) ∧
    validate_modifier_rule schema2 [("f", "-")] [("f", "+")] "p" = .ok () ∧
    validate_modifier_rule schema2 [("f", "+")] [("f", "+")] "q" = .ok () ∧
    validate_modifier_rule schema2 [("g", "-")] [("g", "+")] "q" = .ok () ∧
    featuralize RS2 3 "bqp"
      = .error "Rule q has multiple matches for \x7b0-0062-0-0070+0071\x7d" :=
  ⟨by decide, by decide, by decide, by decide, by decide, by decide, by decide⟩

/-- C2 (amended): the normalization-equivalence check is diagnostic *as long
as the canonical form's featuralization itself succeeds*: an already-normal
segment yields no warnings; otherwise the first warning is always emitted,
the recursive result is compared, a disagreement adds the second warning
rather than an error, and the returned bundle is always the original's.  The
check is not unconditionally non-throwing: the recursive featuralization of
the canonical form can fail (see the counterexample), and that failure
propagates. -/
theorem featuralize_normalization_check_diagnostic :
    (∀ (rs : Ruleset) (fuel : Nat) (raw : String) (seg : Segment)
        (arr : List FeatureBundle),
      parse_segment rs raw = .ok seg →
      seg.units.mapM (featuralize_unit rs) = .ok arr →
      seg.is_normalized rs = .ok true →
      featuralize rs (fuel + 1) raw = .ok (TemporalFeatureBundle.fromArray arr, [])) ∧
    (∀ (rs : Ruleset) (fuel : Nat) (raw : String) (seg norm : Segment)
        (arr : List FeatureBundle) (rf : TemporalFeatureBundle) (rw : List String),
      parse_segment rs raw = .ok seg →
      seg.units.mapM (featuralize_unit rs) = .ok arr →
      seg.is_normalized rs = .ok false →
      seg.get_normalized rs = .ok norm →
      featuralize rs fuel norm.rawGet = .ok (rf, rw) →
      featuralize rs (fuel + 1) raw = .ok (TemporalFeatureBundle.fromArray arr,
        (seg.toStr ++ " not normalized: normal form " ++ norm.toStr) :: rw
          ++ (if (TemporalFeatureBundle.fromArray arr).eq rf then []
              else ["  Normalization affects featuralization! This is probably Very Bad."]))) := by
  constructor
  · intro rs fuel raw seg arr h1 h2 h3
    have hunf : featuralize rs (fuel + 1) raw =
        match parse_segment rs raw with
        | .error e => .error e
        | .ok segment =>
          match segment.units.mapM (featuralize_unit rs) with
          | .error e => .error e
          | .ok features_arr =>
            match segment.is_normalized rs with
            | .error e => .error e
            | .ok true => .ok (TemporalFeatureBundle.fromArray features_arr, [])
            | .ok false =>
              match segment.get_normalized rs with
              | .error e => .error e
              | .ok norm =>
                match featuralize rs fuel norm.rawGet with
                | .error e => .error e
                | .ok r =>
                  if (TemporalFeatureBundle.fromArray features_arr).eq r.1 then
                    .ok (TemporalFeatureBundle.fromArray features_arr,
                      (segment.toStr ++ " not normalized: normal form " ++ norm.toStr) :: r.2)
                  else
                    .ok (TemporalFeatureBundle.fromArray features_arr,
                      ((segment.toStr ++ " not normalized: normal form " ++ norm.toStr) :: r.2)
                        ++ ["  Normalization affects featuralization! This is probably Very Bad."]) := rfl
    rw [hunf, h1]
    dsimp only
    rw [h2]
    dsimp only
    rw [h3]
  · intro rs fuel raw seg norm arr rf rw h1 h2 h3 h4 h5
    have hunf : featuralize rs (fuel + 1) raw =
        match parse_segment rs raw with
        | .error e => .error e
        | .ok segment =>
          match segment.units.mapM (featuralize_unit rs) with
          | .error e => .error e
          | .ok features_arr =>
            match segment.is_normalized rs with
            | .error e => .error e
            | .ok true => .ok (TemporalFeatureBundle.fromArray features_arr, [])
            | .ok false =>
              match segment.get_normalized rs with
              | .error e => .error e
              | .ok norm =>
                match featuralize rs fuel norm.rawGet with
                | .error e => .error e
                | .ok r =>
                  if (TemporalFeatureBundle.fromArray features_arr).eq r.1 then
                    .ok (TemporalFeatureBundle.fromArray features_arr,
                      (segment.toStr ++ " not normalized: normal form " ++ norm.toStr) :: r.2)
                  else
                    .ok (TemporalFeatureBundle.fromArray features_arr,
                      ((segment.toStr ++ " not normalized: normal form " ++ norm.toStr) :: r.2)
                        ++ ["  Normalization affects featuralization! This is probably Very Bad."]) := rfl
    rw [hunf, h1]
    dsimp only
    rw [h2]
    dsimp only
    rw [h3]
    dsimp only
    rw [h4]
    dsimp only
    rw [h5]
    dsimp only
    by_cases hEq : (TemporalFeatureBundle.fromArray arr).eq rf = true
    · rw [if_pos hEq, if_pos hEq, List.append_nil]
    · rw [if_neg hEq, if_neg hEq]

/-- Witness for C2's amended theorem: `RS2b`'s diacritics commute, so the
non-canonical input `bqp` featuralizes with exactly the single
not-normalized warning and no error. -/
theorem featuralize_normalization_check_diagnostic_witness :
    featuralize RS2b 2 "bqp" = .ok (TemporalFeatureBundle.fromArray [[("f", "+"), ("g", "+")]],
      ((⟨[⟨"b", [], [], ["q", "p"]⟩], "bqp", []⟩ : Segment).toStr
          ++ " not normalized: normal form "
          ++ (⟨[⟨"b", [], [], ["p", "q"]⟩], "bqp", []⟩ : Segment).toStr) :: []
        ++ (if (TemporalFeatureBundle.fromArray [[("f", "+"), ("g", "+")]]).eq
              (TemporalFeatureBundle.fromArray [[("f", "+"), ("g", "+")]]) then []
            else ["  Normalization affects featuralization! This is probably Very Bad."])) :=
  featuralize_normalization_check_diagnostic.2 RS2b 1 "bqp"
    ⟨[⟨"b", [], [], ["q", "p"]⟩], "bqp", []⟩
    ⟨[⟨"b", [], [], ["p", "q"]⟩], "bqp", []⟩
    [[("f", "+"), ("g", "+")]]
    (TemporalFeatureBundle.fromArray [[("f", "+"), ("g", "+")]]) []
    (by decide) (by decide) (by decide) (by decide) (by decide)

/-! ### Patch reachability validation (C6) -/
theorem exceptFilter_ok {α : Type} (p : α → Except String Bool) (q : α → Bool) :
    ∀ l : List α, (∀ x ∈ l, p x = .ok (q x)) →
      exceptFilter p l = .ok (l.filter q) := by
  intro l
  induction l with
  | nil => intro _; rfl
  | cons x t ih =>
    intro h
    have hx := h x (List.mem_cons_self _ _)
    have ht := ih (fun y hy => h y (List.mem_cons.mpr (Or.inr hy)))
    have hunf : exceptFilter p (x :: t) =
        match p x with
        | .error e => .error e
        | .ok b =>
          match exceptFilter p t with
          | .error e => .error e
          | .ok rest => .ok (if b then x :: rest else rest) := rfl
    rw [hunf, hx, ht]
    dsimp only
    rw [List.filter_cons]

theorem vmrCheck_ok_iff (fs : FeatureSchemaS) (lhs : List (String × String))
    (glyph : String) :
    ∀ l : List (String × String),
      (∀ x ∈ l, (tlookup fs.features_by_parent x.1).isSome) →
      (vmrCheck fs lhs glyph l = .ok () ↔
        ∀ x ∈ l, ∃ rp, tlookup fs.features_by_parent x.1 = some rp ∧
          lhs.any (fun fval => fval.1 == rp.1 && fval.2 == rp.2) = true) := by
  intro l
  induction l with
  | nil =>
    intro _
    constructor
    · intro _ x hx; exact absurd hx (List.not_mem_nil _)
    · intro _; rfl
  | cons x t ih =>
    intro hpar
    obtain ⟨rp, hrp⟩ := Option.isSome_iff_exists.mp (hpar x (List.mem_cons_self _ _))
    have hunf : vmrCheck fs lhs glyph (x :: t) =
        match tlookup fs.features_by_parent x.1 with
        | none => .error "Undefined RHS parent (this should never happen)"
        | some rp =>
          if lhs.any (fun fval => fval.1 == rp.1 && fval.2 == rp.2) then
            vmrCheck fs lhs glyph t
          else .error ("Invalid rule for " ++ glyph) := rfl
    rw [hunf, hrp]
    dsimp only
    by_cases hany : lhs.any (fun fval => fval.1 == rp.1 && fval.2 == rp.2) = true
    · rw [if_pos hany, ih (fun y hy => hpar y (List.mem_cons.mpr (Or.inr hy)))]
      constructor
      · intro hall y hy
        rcases List.mem_cons.mp hy with rfl | hy'
        · exact ⟨rp, hrp, hany⟩
        · exact hall y hy'
      · intro hall y hy
        exact hall y (List.mem_cons.mpr (Or.inr hy))
    · rw [if_neg hany]
      constructor
      · intro hc; exact absurd hc (by simp)
      · intro hall
        rcases hall x (List.mem_cons_self _ _) with ⟨rp', hrp', hany'⟩
        rw [hrp] at hrp'
        cases hrp'
        exact absurd hany' hany

/-- C6: `validate_modifier_rule` accepts a `(match, patch)` pair exactly when
every feature named in the patch is a direct child of the schema root, or
also present in the match, or a sibling of a match feature (same gating
parent `FeatureValue`, collected in `P`), or has its gating parent present in
the match with exactly the gating value; a patch feature satisfying none of
these makes validation fail (with the invalid-rule error naming the
glyph). -/
theorem validate_modifier_rule_patch_reachability :
    ∀ (fs : FeatureSchemaS) (lhs_ rhs_ : FeatureBundle) (glyph : String)
      (L R P : List (String × String)),
      bundle_to_values fs lhs_ = .ok L →
      bundle_to_values fs rhs_ = .ok R →
      L.mapM (fun x => fs_get_parent fs x.1) = .ok P →
      (∀ x ∈ R, (tlookup fs.features_by_parent x.1).isSome) →
      (validate_modifier_rule fs lhs_ rhs_ glyph = .ok () ↔
        ∀ x ∈ R,
          x.1 ∈ fs.top.map Feature.name ∨
          x.1 ∈ L.map (fun p => p.1) ∨
          (∃ rp, tlookup fs.features_by_parent x.1 = some rp ∧ rp ∈ P) ∨
          (∃ rp, tlookup fs.features_by_parent x.1 = some rp ∧
            ∃ fv, fv ∈ L ∧ fv.1 = rp.1 ∧ fv.2 = rp.2)) := by
  intro fs lhs_ rhs_ glyph L R P hL hR hP hpar
  have hunf : validate_modifier_rule fs lhs_ rhs_ glyph =
      match bundle_to_values fs lhs_ with
      | .error e => .error e
      | .ok lhs =>
        match bundle_to_values fs rhs_ with
        | .error e => .error e
        | .ok rhs =>
          match lhs.mapM (fun x => fs_get_parent fs x.1) with
          | .error e => .error e
          | .ok lhs_parents =>
            match exceptFilter
                (fun x =>
                  match fs_get_parent fs x.1 with
                  | .error e => .error e
                  | .ok p => .ok (!(lhs_parents.contains p)))
                ((rhs.filter (fun x => !((fs.top.map Feature.name).contains x.1))).filter
                  (fun x => !((lhs.map (fun p => p.1)).contains x.1))) with
            | .error e => .error e
            | .ok d3 => vmrCheck fs lhs glyph d3 := rfl
  rw [hunf, hL]
  dsimp only
  rw [hR]
  dsimp only
  rw [hP]
  dsimp only
  have hd2sub : ∀ x ∈ (R.filter (fun x => !((fs.top.map Feature.name).contains x.1))).filter
      (fun x => !((L.map (fun p => p.1)).contains x.1)), x ∈ R := by
    intro x hx
    exact (List.mem_filter.mp (List.mem_filter.mp hx).1).1
  have hfil := exceptFilter_ok
    (fun x =>
      match fs_get_parent fs x.1 with
      | .error e => .error e
      | .ok p => .ok (!(P.contains p)))
    (fun x =>
      match tlookup fs.features_by_parent x.1 with
      | none => false
      | some rp => !(P.contains rp))
    ((R.filter (fun x => !((fs.top.map Feature.name).contains x.1))).filter
      (fun x => !((L.map (fun p => p.1)).contains x.1)))
    (by
      intro x hx
      obtain ⟨rp, hrp⟩ := Option.isSome_iff_exists.mp (hpar x (hd2sub x hx))
      have hgp : fs_get_parent fs x.1 = .ok rp := by
        rw [fs_get_parent, hrp]
      dsimp only
      rw [hgp, hrp])
  rw [hfil]
  dsimp only
  rw [vmrCheck_ok_iff fs L glyph _ (by
    intro x hx
    exact hpar x (hd2sub x (List.mem_filter.mp hx).1))]
  constructor
  · intro hall x hx
    obtain ⟨rp, hrp⟩ := Option.isSome_iff_exists.mp (hpar x hx)
    by_cases hA : x.1 ∈ fs.top.map Feature.name
    · exact Or.inl hA
    · by_cases hB : x.1 ∈ L.map (fun p => p.1)
      · exact Or.inr (Or.inl hB)
      · by_cases hC : rp ∈ P
        · exact Or.inr (Or.inr (Or.inl ⟨rp, hrp, hC⟩))
        · have hmem : x ∈ ((R.filter (fun x => !((fs.top.map Feature.name).contains x.1))).filter
              (fun x => !((L.map (fun p => p.1)).contains x.1))).filter
              (fun x =>
                match tlookup fs.features_by_parent x.1 with
                | none => false
                | some rp => !(P.contains rp)) := by
            refine List.mem_filter.mpr ⟨List.mem_filter.mpr ⟨List.mem_filter.mpr ⟨hx, ?_⟩, ?_⟩, ?_⟩
            · simpa using hA
            · simpa using hB
            · rw [hrp]
              simpa using hC
          rcases hall x hmem with ⟨rp', hrp', hany⟩
          rw [hrp] at hrp'
          cases hrp'
          rcases List.any_eq_true.mp hany with ⟨fv, hfv, hcond⟩
          rw [Bool.and_eq_true, beq_iff_eq, beq_iff_eq] at hcond
          exact Or.inr (Or.inr (Or.inr ⟨rp, hrp, fv, hfv, hcond.1, hcond.2⟩))
  · intro hall x hx
    have hxR : x ∈ R := hd2sub x (List.mem_filter.mp hx).1
    obtain ⟨rp, hrp⟩ := Option.isSome_iff_exists.mp (hpar x hxR)
    have hq := (List.mem_filter.mp hx).2
    rw [hrp] at hq
    have hC : rp ∉ P := by simpa using hq
    have hd2 := (List.mem_filter.mp hx).1
    have hB : x.1 ∉ L.map (fun p => p.1) := by
      have := (List.mem_filter.mp hd2).2
      simpa using this
    have hA : x.1 ∉ fs.top.map Feature.name := by
      have := (List.mem_filter.mp (List.mem_filter.mp hd2).1).2
      simpa using this
    rcases hall x hxR with h | h | h | h
    · exact absurd h hA
    · exact absurd h hB
    · rcases h with ⟨rp', hrp', hmem⟩
      rw [hrp] at hrp'
      cases hrp'
      exact absurd hmem hC
    · rcases h with ⟨rp', hrp', fv, hfv, h1, h2⟩
      rw [hrp] at hrp'
      cases hrp'
      refine ⟨rp, hrp, List.any_eq_true.mpr ⟨fv, hfv, ?_⟩⟩
      rw [Bool.and_eq_true, beq_iff_eq, beq_iff_eq]
      exact ⟨h1, h2⟩

/-- Witness for C6: the gating schema accepts the dependent-feature rule
`consonantal:+ → fortis:+` (condition (d): the match carries the gating
parent value of the patch feature). -/
theorem validate_modifier_rule_patch_reachability_witness :
    validate_modifier_rule schemaCS [("consonantal", "+")] [("fortis", "+")] "d"
      = .ok () :=
  (validate_modifier_rule_patch_reachability schemaCS
      [("consonantal", "+")] [("fortis", "+")] "d"
      [("consonantal", "+")] [("fortis", "+")] [("Root", "Features")]
      (by decide) (by decide) (by decide) (by decide)).mpr
    (by
      intro x hx
      have hxe : x = ("fortis", "+") := List.mem_singleton.mp hx
      subst hxe
      exact Or.inr (Or.inr (Or.inr ⟨("consonantal", "+"), by decide,
        ("consonantal", "+"), List.mem_singleton.mpr rfl, rfl, rfl⟩)))

/-! ### Alias seeding from the defaults table (C10) -/
theorem pflGo_entries (rs : Ruleset) :
    ∀ (toks : List String) (s : FeatureBundle),
      pflGo rs toks s =
        match pflEntries rs toks with
        | .error e => .error e
        | .ok E => .ok (E.foldl (fun b p => bset b p.1 p.2) s) := by
  intro toks
  induction toks with
  | nil => intro s; rfl
  | cons f t ih =>
    intro s
    have hunfGo : pflGo rs (f :: t) s =
        match (if strTake f 1 == "*" then parse_alias rs f else parse_feature rs f) with
        | .error e => .error e
        | .ok res => pflGo rs t (res.foldl (fun b p => bset b p.1 p.2) s) := rfl
    have hunfE : pflEntries rs (f :: t) =
        match (if strTake f 1 == "*" then parse_alias rs f else parse_feature rs f) with
        | .error e => .error e
        | .ok res =>
          match pflEntries rs t with
          | .error e => .error e
          | .ok rest => .ok (res ++ rest) := rfl
    rw [hunfGo, hunfE]
    cases hres : (if strTake f 1 == "*" then parse_alias rs f else parse_feature rs f) with
    | error e => rfl
    | ok res =>
      dsimp only
      rw [ih]
      cases hE : pflEntries rs t with
      | error e => rfl
      | ok E =>
        dsimp only
        rw [List.foldl_append]

/-- `firstSome` drops a `none` fallback. -/
theorem firstSome_none (a : Option String) : firstSome a none = a := by
  cases a <;> rfl

/-- C10 (counterexample): with an earlier `__meta default - : fortis`
directive, the alias line `__meta alias a : +fortis` stores the bundle
`{fortis:+}` — the alias line's own token overrides the seeded default, so
the stored bundle does *not* contain the recorded default pair
`fortis:-`. -/
theorem parse_meta_alias_line_overrides_default :
    (hoist_pass RS10
        [["__meta", "default", "-", ":", "fortis"],
          ["__meta", "alias", "a", ":", "+fortis"]]).map
      (fun rs' => (rs'.defaults, tlookup rs'.aliases "a"))
      = .ok ([("fortis", "-")], some [("fortis", "+")]) := by decide

/-- C10 (amended): an alias's stored bundle is seeded from the defaults table
as it stands when the alias line is processed during the hoisting pass
(conjunct 4 splits the pass at any line), so it contains every default pair
recorded by earlier default directives *whose feature the alias line's own
tokens do not reassign* — tokens override the seeded defaults (conjunct 1);
`parse_meta_alias` stores exactly the `use_defaults = true` token-list parse
(conjunct 2); and expanding the alias inside a modifier rule's match or
patch token list (parsed with `use_defaults = false`) injects exactly the
stored bundle's pairs — defaults included — into that bundle (conjunct 3). -/
theorem parse_meta_alias_seeded_from_defaults :
    (∀ (rs : Ruleset) (toks : List String) (b b₀ : FeatureBundle),
      parse_feature_list rs toks true = .ok b →
      parse_feature_list rs toks false = .ok b₀ →
      ∀ k, bget b k = firstSome (bget b₀ k) (bget rs.defaults k)) ∧
    (∀ (rs : Ruleset) (name : String) (rest : List String),
      name ≠ "" → rest ≠ [] →
      parse_meta_alias rs (name :: ":" :: rest) =
        match parse_feature_list rs rest true with
        | .error e => .error e
        | .ok b => .ok { rs with aliases := tset rs.aliases name b }) ∧
    (∀ (rs : Ruleset) (t name : String) (b : FeatureBundle),
      strTake t 1 = "*" → strDrop t 1 = name →
      tlookup rs.aliases name = some b → (bkeys b).Nodup →
      ∃ c, parse_feature_list rs [t] false = .ok c ∧ ∀ k, bget c k = bget b k) ∧
    (∀ (rs : Ruleset) (l₁ l₂ : List (List String)),
      hoist_pass rs (l₁ ++ l₂) =
        hoist_pass rs l₁ >>= fun rs' => hoist_pass rs' l₂) := by
  refine ⟨?_, ?_, ?_, ?_⟩
  · intro rs toks b b₀ hb hb₀ k
    rw [parse_feature_list, pflGo_entries] at hb hb₀
    cases hE : pflEntries rs toks with
    | error e => rw [hE] at hb; cases hb
    | ok E =>
      rw [hE] at hb hb₀
      dsimp only [cond] at hb hb₀
      cases hb
      cases hb₀
      rw [bget_foldl_bset, bget_foldl_bset, bget_nil, firstSome_none]
  · intro rs name rest hname hrest
    have hlen : ¬ (name :: ":" :: rest).length < 3 := by
      match rest with
      | [] => exact absurd rfl hrest
      | r :: rest' => simp
    have hunf : parse_meta_alias rs (name :: ":" :: rest) =
        if (name :: ":" :: rest).length < 3 then
          .error ("Invalid alias defn: " ++ String.intercalate " " (name :: ":" :: rest))
        else if name = "" then
          .error ("Invalid alias defn: " ++ String.intercalate " " (name :: ":" :: rest))
        else if (":" : String) ≠ ":" then
          .error ("Invalid alias defn: " ++ String.intercalate " " (name :: ":" :: rest))
        else
          parse_feature_list rs rest true >>= fun bundle =>
            .ok { rs with aliases := tset rs.aliases name bundle } := rfl
    rw [hunf, if_neg hlen, if_neg hname, if_neg (fun h => h rfl)]
    cases parse_feature_list rs rest true <;> rfl
  · intro rs t name b ht1 ht2 hlook hnodup
    have hstep : (if strTake t 1 == "*" then parse_alias rs t else parse_feature rs t)
        = .ok b := by
      rw [if_pos (by rw [ht1]; rfl), parse_alias, ht2, hlook]
    refine ⟨b.foldl (fun c p => bset c p.1 p.2) [], ?_, ?_⟩
    · have hunf : parse_feature_list rs [t] false =
          match (if strTake t 1 == "*" then parse_alias rs t else parse_feature rs t) with
          | .error e => .error e
          | .ok res => .ok (res.foldl (fun c p => bset c p.1 p.2) []) := rfl
      rw [hunf, hstep]
    · intro k
      rw [bget_foldl_bset, bget_nil, firstSome_none,
        find?_reverse_of_nodup_keys _ _ hnodup]
      rfl
  · intro rs l₁ l₂
    induction l₁ generalizing rs with
    | nil => rfl
    | cons l ls ih =>
      have h1 : hoist_pass rs (l :: (ls ++ l₂)) =
          hoist_line rs l >>= fun rs' => hoist_pass rs' (ls ++ l₂) := rfl
      have h2 : hoist_pass rs (l :: ls) =
          hoist_line rs l >>= fun rs' => hoist_pass rs' ls := rfl
      rw [List.cons_append, h1, h2]
      cases hoist_line rs l with
      | error e => rfl
      | ok rs' => exact ih rs'

/-- Witness for C10's amended theorem: with defaults `{f:-}`, the alias body
`+g` yields a stored bundle whose `f` entry is the inherited default. -/
theorem parse_meta_alias_seeded_from_defaults_witness :
    bget [("f", "-"), ("g", "+")] "f"
      = firstSome (bget [("g", "+")] "f") (bget [("f", "-")] "f") :=
  parse_meta_alias_seeded_from_defaults.1
    { base_characters := [], mods_prefixal := [], mods_combining := [],
      mods_suffixal := [], feature_schema := schema2,
      defaults := [("f", "-")], aliases := [] }
    ["+g"] [("f", "-"), ("g", "+")] [("g", "+")] (by decide) (by decide) "f"

end PFeature
